import Mathlib

/-!
# Verification of the finite state machine engine (`finite_state_machine.py`)

A shallow embedding of the FSM engine of the pokemon-bdsp-ai repository, together
with theorems settling the frozen specification claims.  Python integers are
modelled as `Int`, Python lists as `List`, and Python's indexing (where a small
negative index counts from the end of the list) by the helpers `pyIdx`, `pyGet`
and `pySet`.  Out-of-range accesses (which raise `IndexError` in Python) are
totalised with explicit defaults; every theorem that relies on an access being
in range carries the corresponding validity hypothesis.  Listener callbacks are
modelled as an event trace: dispatching a callback appends a
`(listener, event)` pair to the trace, in dispatch order.
-/

namespace PokemonFSM

/-- `Transition` from `finite_state_machine.py`: `from_state`, `to_state` and an
optional `action`; a `none` action denotes an epsilon transition. -/
structure Transition where
  from_state : Int
  to_state : Int
  action : Option String := none
deriving DecidableEq

/-- `State` from `finite_state_machine.py`: a name plus the incoming and
outgoing transition reference lists. -/
structure State where
  name : String
  incoming : List Transition
  outgoing : List Transition
deriving DecidableEq

/-- The events of the `FSMListener` interface. -/
inductive Event where
  | onStateEntered (state : Int)
  | onStateExited (state : Int)
  | onTransition (t : Transition)
deriving DecidableEq

/-- `FiniteStateMachine` fields: states, transitions, current state id and the
registered listeners (modelled by opaque identifiers, in registration order). -/
structure FiniteStateMachine where
  states : List State
  transitions : List Transition
  current_state : Int
  listeners : List Nat
deriving DecidableEq

/-- Default `State` used to totalise out-of-range list accesses. -/
def defaultState : State := { name := "", incoming := [], outgoing := [] }

/-- Python list-index resolution: a negative index `i` refers to offset
`n + i`; the result is `none` when the access would raise `IndexError`. -/
def pyIdx (n : Nat) (i : Int) : Option Nat :=
  let j : Int := if i < 0 then i + n else i
  if 0 ≤ j ∧ j < n then some j.toNat else none

/-- Python list read `xs[i]`, totalised with a default for out-of-range. -/
def pyGet (xs : List α) (i : Int) (dflt : α) : α :=
  match pyIdx xs.length i with
  | some j => xs.getD j dflt
  | none => dflt

/-- Python list write `xs[i] = v`, a no-op when out of range. -/
def pySet (xs : List α) (i : Int) (v : α) : List α :=
  match pyIdx xs.length i with
  | some j => xs.set j v
  | none => xs

/-- `FiniteStateMachine.__init__(initial_state, states, transitions)`. -/
def FiniteStateMachine.init (initial_state : Int) (states : List State)
    (transitions : List Transition) : FiniteStateMachine :=
  { states := states, transitions := transitions,
    current_state := initial_state, listeners := [] }

/-- `register_listener`: appends a listener. -/
def FiniteStateMachine.register_listener (m : FiniteStateMachine) (l : Nat) :
    FiniteStateMachine :=
  { m with listeners := m.listeners ++ [l] }

/-- `name(state)` from the source, embedded faithfully.  The method is
declared `def name(state: int)` without a `self` parameter while its body reads
`self.states[state].name`, so every invocation raises before any string is
produced (`TypeError` through an instance, since the machine is passed where
`state` is expected; `NameError` through the class, since `self` is unbound):
the error outcome `none` is its only behavior, for every machine and id. -/
def FiniteStateMachine.name (_m : FiniteStateMachine) (_state : Int) : Option String :=
  none

/-- The loop of `find_state`: scan `states` from index `i`, returning the index
of the first state with the given name, or `-1`. -/
def findStateAux : List State → String → Nat → Int
  | [], _, _ => -1
  | s :: rest, nm, i => if s.name = nm then (i : Int) else findStateAux rest nm (i + 1)

/-- `find_state(name)`: id of the first state with the given name, `-1` if none. -/
def FiniteStateMachine.find_state (m : FiniteStateMachine) (nm : String) : Int :=
  findStateAux m.states nm 0

/-- The loop of `find_transition`: first stored transition from `a` to `b`. -/
def findTransitionAux : List Transition → Int → Int → Option Transition
  | [], _, _ => none
  | t :: rest, a, b =>
      if t.from_state = a ∧ t.to_state = b then some t else findTransitionAux rest a b

/-- `find_transition(a, b)`: the first stored transition leading from `a` to
`b`, or `none`. -/
def FiniteStateMachine.find_transition (m : FiniteStateMachine) (a b : Int) :
    Option Transition :=
  findTransitionAux m.transitions a b

/-- `transition_to(state)`.  Returns `(error?, machine', trace)`: on success the
error is `none`, the machine has the new `current_state` and the trace lists the
listener callbacks in dispatch order; on failure (`ValueError` in Python) the
machine is unchanged and the trace empty. -/
def FiniteStateMachine.transition_to (m : FiniteStateMachine) (state : Int) :
    Option String × FiniteStateMachine × List (Nat × Event) :=
  match m.find_transition m.current_state state with
  | some t =>
      let exitTrace := m.listeners.map (fun l => (l, Event.onStateExited m.current_state))
      let m' := { m with current_state := state }
      let enterTrace := m.listeners.flatMap
        (fun l => [(l, Event.onStateEntered m'.current_state), (l, Event.onTransition t)])
      (none, m', exitTrace ++ enterTrace)
  | none =>
      let na := (pyGet m.states m.current_state defaultState).name
      let nb := (pyGet m.states state defaultState).name
      (some ("No transition defined between " ++ na ++ " and " ++ nb), m, [])

/-- Outgoing transition list of the state with id `s` (`self.states[state].outgoing`). -/
def outgoingOf (m : FiniteStateMachine) (s : Int) : List Transition :=
  (pyGet m.states s defaultState).outgoing

/-- The `for transition in self.states[state].outgoing` loop of
`__perform_action`: appends each unvisited matching target followed by the
states its recursive epsilon exploration produces.  The parameter `pa` stands
for the recursive `__perform_action(None, target, visited)` call at the current
recursion-depth bound; `performAction` below ties the knot. -/
def performLoop (pa : Option String → Int → List Bool → List Int × List Bool)
    (action : Option String) : List Transition → List Bool → List Int × List Bool
  | [], visited => ([], visited)
  | t :: rest, visited =>
      if t.action = action ∧ pyGet visited t.to_state true = false then
        let r1 := pa none t.to_state visited
        let r2 := performLoop pa action rest r1.2
        (t.to_state :: (r1.1 ++ r2.1), r2.2)
      else
        performLoop pa action rest visited

/-- `__perform_action(action, state, visited)`.  The `visited` array is threaded
explicitly; the result pairs the produced `possible_states` list with the final
`visited` array.  `fuel` bounds the recursion depth; `simulate_action` passes
`states.length + 1`, which is always sufficient because every nested call is on
a previously unvisited state (see the fuel lemmas below). -/
def performAction (m : FiniteStateMachine) :
    Nat → Option String → Int → List Bool → List Int × List Bool
  | 0, _, _, visited => ([], visited)
  | Nat.succ fuel', action, state, visited =>
      performLoop (performAction m fuel') action (outgoingOf m state)
        (pySet visited state true)

/-- `simulate_action(action)`: a fresh all-`False` visited array, then
`__perform_action(action, current_state, visited)`.  The machine itself is
returned unchanged, mirroring that the Python method never assigns to `self`. -/
def FiniteStateMachine.simulate_action (m : FiniteStateMachine)
    (action : Option String) : List Int × FiniteStateMachine :=
  let visited := List.replicate m.states.length false
  ((performAction m (m.states.length + 1) action m.current_state visited).1, m)

/-- The `for next in neighbors` loop of `bfs`: each unvisited neighbor is
appended to the queue, marked visited, and recorded in `prev`. -/
def bfsInner (current : Int) : List Int → List Int → List Bool →
    List (Option Int) → List Int × List Bool × List (Option Int)
  | [], q, visited, prev => (q, visited, prev)
  | nxt :: rest, q, visited, prev =>
      if pyGet visited nxt true = false then
        bfsInner current rest (q ++ [nxt]) (pySet visited nxt true)
          (pySet prev nxt (some current))
      else
        bfsInner current rest q visited prev

/-- The `while len(q) > 0` loop of `bfs`.  `fuel` bounds the number of
iterations; `bfs` passes `states.length + 1`, which is always sufficient since
each iteration pops one element and every append marks a previously unvisited
in-range state. -/
def bfsLoop (m : FiniteStateMachine) (fuel : Nat) (q : List Int)
    (visited : List Bool) (prev : List (Option Int)) : List Bool × List (Option Int) :=
  match fuel, q with
  | _, [] => (visited, prev)
  | 0, _ => (visited, prev)
  | Nat.succ fuel', current :: qrest =>
      let neighbors := (outgoingOf m current).map (fun t => t.to_state)
      let r := bfsInner current neighbors qrest visited prev
      bfsLoop m fuel' r.1 r.2.1 r.2.2

/-- The path-reconstruction loop of `bfs` (`while not at == None`), producing
`[end, prev[end], ...]`.  `fuel` bounds the walk; `bfs` passes
`states.length + 1`, sufficient because the predecessor chains built by
`bfsLoop` are acyclic (see the invariant lemmas below). -/
def buildPath (prev : List (Option Int)) : Nat → Int → List Int
  | 0, _ => []
  | Nat.succ fuel', at_ =>
      at_ :: (match pyGet prev at_ none with
              | some p => buildPath prev fuel' p
              | none => [])

/-- `bfs(end, start=-1)`.  Note that the source never resolves a negative
`start` to `current_state`: the sentinel `-1` is used directly as a Python
index, so `visited[start]` marks the last state and the final
`path[0] == start` check compares against `-1` itself.  The `headD` default is
`start + 1 ≠ start`, so an empty reconstruction (impossible in Python, where
the path always receives `end` first) yields `[]`. -/
def FiniteStateMachine.bfs (m : FiniteStateMachine) (end_ : Int)
    (start : Int := -1) : List Int :=
  let n := m.states.length
  let visited0 := pySet (List.replicate n false) start true
  let prev0 : List (Option Int) := List.replicate n none
  let r := bfsLoop m (n + 1) [start] visited0 prev0
  let path := (buildPath r.2 (n + 1) end_).reverse
  if path.headD (start + 1) = start then path else []

/-- `load_states(path)`: one `State` per row, with fresh empty
incoming/outgoing lists; the input is modelled as the list of first-column
strings of the CSV rows. -/
def load_states (rows : List String) : List State :=
  rows.map (fun nm => { name := nm, incoming := [], outgoing := [] })

/-- A row of `transitions.csv`: action label (empty string means epsilon),
source state name, destination state name. -/
structure TransitionRow where
  action : String
  fromName : String
  toName : String
deriving DecidableEq

/-- `list.index(x)` for strings, scanning from position `i`; `none` models the
`ValueError` Python raises when the element is absent. -/
def indexAux : List String → String → Nat → Option Nat
  | [], _, _ => none
  | s :: rest, x, i => if s = x then some i else indexAux rest x (i + 1)

/-- Replace the element at position `i` by `f` of it (used for the in-place
`append` to a state's outgoing/incoming list). -/
def modifyAt : List α → Nat → (α → α) → List α
  | [], _, _ => []
  | x :: rest, 0, f => f x :: rest
  | x :: rest, Nat.succ i, f => x :: modifyAt rest i f

/-- The `for row in csv.reader(transitions_file)` loop of `from_csv`: resolve
both names (a missing name aborts the whole load, as the `ValueError` from
`list.index` propagates), build the `Transition`, append it to the transition
list and to the two referenced states' outgoing/incoming lists. -/
def fromCsvLoop (state_names : List String) : List State → List Transition →
    List TransitionRow → Option (List State × List Transition)
  | states, transitions, [] => some (states, transitions)
  | states, transitions, row :: rest =>
      match indexAux state_names row.fromName 0 with
      | none => none
      | some from_state =>
          match indexAux state_names row.toName 0 with
          | none => none
          | some to_state =>
              let t : Transition :=
                { from_state := (from_state : Int), to_state := (to_state : Int),
                  action := if row.action = "" then none else some row.action }
              let states1 := modifyAt states from_state
                (fun s => { s with outgoing := s.outgoing ++ [t] })
              let states2 := modifyAt states1 to_state
                (fun s => { s with incoming := s.incoming ++ [t] })
              fromCsvLoop state_names states2 (transitions ++ [t]) rest

/-- `from_csv(folder)`, with the two CSV files modelled as parsed row lists.
`none` models the construction aborting with an uncaught exception. -/
def from_csv (stateRows : List String) (transitionRows : List TransitionRow) :
    Option FiniteStateMachine :=
  let states := load_states stateRows
  let state_names := states.map State.name
  match fromCsvLoop state_names states [] transitionRows with
  | none => none
  | some r => some (FiniteStateMachine.init 0 r.1 r.2)

/-! ## Specification-level notions and fixtures -/

/-- A stored transition leads from `u` to `v` (action label ignored). -/
def stepRel (m : FiniteStateMachine) (u v : Int) : Prop :=
  ∃ t ∈ m.transitions, t.from_state = u ∧ t.to_state = v

/-- A stored epsilon transition leads from `u` to `v`. -/
def epsStep (m : FiniteStateMachine) (u v : Int) : Prop :=
  ∃ t ∈ m.transitions, t.from_state = u ∧ t.to_state = v ∧ t.action = none

/-- A stored transition labeled `a` leads from `u` to `v`. -/
def actionStep (m : FiniteStateMachine) (a : Option String) (u v : Int) : Prop :=
  ∃ t ∈ m.transitions, t.from_state = u ∧ t.to_state = v ∧ t.action = a

/-- `v` is reachable from `u` in exactly `k` stored-transition hops. -/
inductive ReachN (m : FiniteStateMachine) : Nat → Int → Int → Prop
  | refl (u : Int) : ReachN m 0 u u
  | snoc {k : Nat} {u v w : Int} : ReachN m k u v → stepRel m v w → ReachN m (k + 1) u w

/-- `v` is reachable from `u` via stored transitions. -/
def Reaches (m : FiniteStateMachine) (u v : Int) : Prop :=
  ∃ k, ReachN m k u v

/-- The set claim C5 describes, rendered literally: a state distinct from the
root that is an immediate target of an `a`-labeled transition out of the
current state, or lies in the transitive epsilon-closure of such a target. -/
def claimC5Set (m : FiniteStateMachine) (a : Option String) (x : Int) : Prop :=
  x ≠ m.current_state ∧
    ∃ u, actionStep m a m.current_state u ∧ Relation.ReflTransGen (epsStep m) u x

/-- States obtained from `root` by one `a`-labeled hop followed by any chain of
epsilon hops in which the root is never re-entered (the amended claim C5). -/
inductive SimReach (m : FiniteStateMachine) (a : Option String) (root : Int) : Int → Prop
  | hop {v : Int} : actionStep m a root v → v ≠ root → SimReach m a root v
  | eps {u v : Int} : SimReach m a root u → epsStep m u v → v ≠ root → SimReach m a root v

/-- The data-model invariants of the spec (§3): the current state and all
transition endpoints are valid indices, and every state's outgoing/incoming
list holds exactly the stored transitions leaving/entering it, in storage
order. -/
@[reducible]
def Wf (m : FiniteStateMachine) : Prop :=
  (0 ≤ m.current_state ∧ m.current_state < m.states.length) ∧
  (∀ t ∈ m.transitions,
     (0 ≤ t.from_state ∧ t.from_state < m.states.length) ∧
     (0 ≤ t.to_state ∧ t.to_state < m.states.length)) ∧
  (∀ i : Nat, i < m.states.length →
     (m.states.getD i defaultState).outgoing =
       m.transitions.filter (fun t => decide (t.from_state = (i : Int))) ∧
     (m.states.getD i defaultState).incoming =
       m.transitions.filter (fun t => decide (t.to_state = (i : Int))))

/-- Epsilon transition from `start` to `middle` of the spec's fixture (§8). -/
def t01 : Transition := { from_state := 0, to_state := 1, action := none }

/-- The `press_a` transition from `middle` to `end` of the spec's fixture. -/
def t12 : Transition := { from_state := 1, to_state := 2, action := some "press_a" }

/-- The three-state fixture of the spec (§8): states `[start, middle, end]`,
transitions `[("", start, middle), ("press_a", middle, end)]`, current state 0. -/
def fixtureFSM : FiniteStateMachine :=
  { states := [{ name := "start", incoming := [], outgoing := [t01] },
               { name := "middle", incoming := [t01], outgoing := [t12] },
               { name := "end", incoming := [t12], outgoing := [] }],
    transitions := [t01, t12], current_state := 0, listeners := [] }

/-- The fixture with two registered listeners (ids 0 and 1, in that order). -/
def fixtureL : FiniteStateMachine :=
  (fixtureFSM.register_listener 0).register_listener 1

/-- Epsilon transition from state 1 back to state 0. -/
def u10 : Transition := { from_state := 1, to_state := 0, action := none }

/-- A two-state machine whose only transition leads from the last state back to
state 0; with the default `start = -1`, `bfs 0` returns the path `[-1, 0]`. -/
def twoFSM : FiniteStateMachine :=
  { states := [{ name := "A", incoming := [u10], outgoing := [] },
               { name := "B", incoming := [], outgoing := [u10] }],
    transitions := [u10], current_state := 0, listeners := [] }

/-- Transition labeled `a` from state 0 to state 1. -/
def ca01 : Transition := { from_state := 0, to_state := 1, action := some "a" }

/-- Epsilon transition from state 1 back to the root state 0. -/
def ce10 : Transition := { from_state := 1, to_state := 0, action := none }

/-- Epsilon transition from the root state 0 to state 2. -/
def ce02 : Transition := { from_state := 0, to_state := 2, action := none }

/-- Counterexample machine for claim C5: performing `a` reaches state 1, whose
epsilon-closure `{1, 0, 2}` contains state 2 only through the root 0, so the
code returns `[1]` while the claimed set is `{1, 2}`. -/
def cexC5 : FiniteStateMachine :=
  { states := [{ name := "r", incoming := [ce10], outgoing := [ca01, ce02] },
               { name := "t", incoming := [ca01], outgoing := [ce10] },
               { name := "x", incoming := [ce02], outgoing := [] }],
    transitions := [ca01, ce10, ce02], current_state := 0, listeners := [] }

/-- Every state's outgoing (resp. incoming) list holds exactly the stored
transitions leaving (resp. entering) it, in storage order — invariant (c) of
the spec's data model, as established by the loader. -/
def LinkedInv (states : List State) (transitions : List Transition) : Prop :=
  ∀ i : Nat, i < states.length →
    (states.getD i defaultState).outgoing =
      transitions.filter (fun t => decide (t.from_state = (i : Int))) ∧
    (states.getD i defaultState).incoming =
      transitions.filter (fun t => decide (t.to_state = (i : Int)))

/-- Loop invariant of `bfs` between iterations of the `while` loop.  `d` is the
BFS-tree depth assignment witnessing the invariant and `D` the depth of the
most recently processed state ("processed" meaning visited and no longer
queued): queued depths lie in `[D, D + 1]` and are sorted, every visited state
is reachable at its depth and carries a predecessor chain decreasing in depth,
depths stay below the visited count, and every processed state has all its
successors visited within depth `D + 1`. -/
structure BfsInv (m : FiniteStateMachine) (start : Int) (d : Int → Nat) (D : Nat)
    (q : List Int) (visited : List Bool) (prev : List (Option Int)) : Prop where
  vlen : visited.length = m.states.length
  plen : prev.length = m.states.length
  start_nonneg : 0 ≤ start
  start_lt : start < m.states.length
  start_vis : visited.getD start.toNat false = true
  d_start : d start = 0
  q_vis : ∀ x ∈ q, (0 ≤ x ∧ x < m.states.length) ∧ visited.getD x.toNat false = true
  q_sorted : q.Pairwise (fun x y => d x ≤ d y)
  q_lb : ∀ x ∈ q, D ≤ d x
  q_ub : ∀ x ∈ q, d x ≤ D + 1
  vis_reach : ∀ x : Int, 0 ≤ x → x < m.states.length →
      visited.getD x.toNat false = true → ReachN m (d x) start x
  vis_prev : ∀ x : Int, 0 ≤ x → x < m.states.length →
      visited.getD x.toNat false = true →
      (x = start ∧ prev.getD x.toNat none = none) ∨
      (∃ u, prev.getD x.toNat none = some u ∧ 0 ≤ u ∧ u < m.states.length ∧
        visited.getD u.toNat false = true ∧ stepRel m u x ∧ d x = d u + 1)
  d_count : ∀ x : Int, 0 ≤ x → x < m.states.length →
      visited.getD x.toNat false = true → d x + 1 ≤ visited.count true
  prev_none : ∀ j : Nat, j < m.states.length → visited.getD j false = false →
      prev.getD j none = none
  proc_closed : ∀ u : Int, 0 ≤ u → u < m.states.length →
      visited.getD u.toNat false = true → u ∉ q →
      ∀ t ∈ m.transitions, t.from_state = u →
        visited.getD t.to_state.toNat false = true ∧ d t.to_state ≤ d u + 1
  proc_le : ∀ u : Int, 0 ≤ u → u < m.states.length →
      visited.getD u.toNat false = true → u ∉ q → d u ≤ D

/-! ## Basic lemmas on the Python-indexing helpers -/

theorem pyIdx_of_nonneg {n : Nat} {i : Int} (h0 : 0 ≤ i) (h1 : i < n) :
    pyIdx n i = some i.toNat := by
  simp only [pyIdx, if_neg (not_lt.mpr h0)]
  exact if_pos ⟨h0, h1⟩

theorem pyGet_eq_getD {xs : List α} {i : Int} (h0 : 0 ≤ i) (h1 : i < xs.length)
    (d : α) : pyGet xs i d = xs.getD i.toNat d := by
  simp [pyGet, pyIdx_of_nonneg h0 h1]

theorem pySet_eq_set {xs : List α} {i : Int} (h0 : 0 ≤ i) (h1 : i < xs.length)
    (v : α) : pySet xs i v = xs.set i.toNat v := by
  simp [pySet, pyIdx_of_nonneg h0 h1]

theorem getD_set_self {xs : List α} {j : Nat} (h : j < xs.length) (v d : α) :
    (xs.set j v).getD j d = v := by
  induction xs generalizing j with
  | nil => simp at h
  | cons x rest ih =>
      cases j with
      | zero => simp [List.set, List.getD]
      | succ j => simpa [List.set, List.getD] using ih (by simpa using h)

theorem getD_set_ne {xs : List α} {i j : Nat} (h : i ≠ j) (v d : α) :
    (xs.set i v).getD j d = xs.getD j d := by
  induction xs generalizing i j with
  | nil => simp [List.set]
  | cons x rest ih =>
      cases i with
      | zero =>
          cases j with
          | zero => exact absurd rfl h
          | succ j => simp [List.set, List.getD]
      | succ i =>
          cases j with
          | zero => simp [List.set, List.getD]
          | succ j => simpa [List.set, List.getD] using ih (fun hh => h (by omega))

/-! ## Claim theorems: C1, C7, C10 -/

/-- Claim C1 (code bug): on the spec's three-state fixture with
`current_state = 0`, calling `bfs(2)` with the start parameter unspecified does
not search from `current_state`: the sentinel `-1` is used literally as a
Python index, the search runs from the last state, and the result is `[]`
rather than the claimed `[0, 1, 2]` (which explicit `start = 0` produces).  On
`twoFSM` the defaulted call even returns a non-empty path beginning with `-1`
rather than with `current_state = 0`. -/
theorem C1_bfs_default_start_bug :
    fixtureFSM.current_state = 0 ∧
    fixtureFSM.bfs 2 = [] ∧
    fixtureFSM.bfs 2 0 = [0, 1, 2] ∧
    twoFSM.current_state = 0 ∧
    twoFSM.bfs 0 = [-1, 0] := by
  decide

/-- Claim C7: `simulate_action` leaves every field of the machine unchanged,
and a second call with the same label on the resulting machine returns the same
sequence. -/
theorem C7_simulate_action_pure (m : FiniteStateMachine) (a : Option String) :
    (m.simulate_action a).2 = m ∧
    (m.simulate_action a).2.states = m.states ∧
    (m.simulate_action a).2.transitions = m.transitions ∧
    (m.simulate_action a).2.current_state = m.current_state ∧
    (m.simulate_action a).2.listeners = m.listeners ∧
    ((m.simulate_action a).2.simulate_action a).1 = (m.simulate_action a).1 := by
  refine ⟨rfl, rfl, rfl, rfl, rfl, rfl⟩

/-! ## `find_transition` lemmas and claims C8, C10 -/

theorem findTransitionAux_eq_none {ts : List Transition} {a b : Int} :
    findTransitionAux ts a b = none ↔
      ∀ t ∈ ts, ¬(t.from_state = a ∧ t.to_state = b) := by
  induction ts with
  | nil => simp [findTransitionAux]
  | cons t rest ih =>
      by_cases h : t.from_state = a ∧ t.to_state = b
      · simp [findTransitionAux, if_pos h, h]
      · simp only [findTransitionAux, if_neg h, ih, List.mem_cons]
        constructor
        · rintro hall u (rfl | hu)
          · exact h
          · exact hall u hu
        · intro hall u hu
          exact hall u (Or.inr hu)

theorem findTransitionAux_eq_some {ts : List Transition} {a b : Int}
    {t : Transition} (h : findTransitionAux ts a b = some t) :
    t.from_state = a ∧ t.to_state = b ∧
      ∃ l r, ts = l ++ t :: r ∧ ∀ u ∈ l, ¬(u.from_state = a ∧ u.to_state = b) := by
  induction ts with
  | nil => simp [findTransitionAux] at h
  | cons u rest ih =>
      by_cases hu : u.from_state = a ∧ u.to_state = b
      · rw [findTransitionAux, if_pos hu, Option.some_inj] at h
        subst h
        exact ⟨hu.1, hu.2, [], rest, rfl, by simp⟩
      · rw [findTransitionAux, if_neg hu] at h
        obtain ⟨h1, h2, l, r, hap, hl⟩ := ih h
        refine ⟨h1, h2, u :: l, r, by simp [hap], ?_⟩
        intro v hv
        rcases List.mem_cons.mp hv with rfl | hv'
        · exact hu
        · exact hl v hv'

theorem findTransitionAux_isSome {ts : List Transition} {a b : Int}
    (h : ∃ t ∈ ts, t.from_state = a ∧ t.to_state = b) :
    ∃ u, findTransitionAux ts a b = some u := by
  cases hf : findTransitionAux ts a b with
  | some u => exact ⟨u, rfl⟩
  | none =>
      obtain ⟨t, ht, hm⟩ := h
      exact absurd hm (findTransitionAux_eq_none.mp hf t ht)

theorem findTransitionAux_mem {ts : List Transition} {a b : Int} {t : Transition}
    (h : findTransitionAux ts a b = some t) : t ∈ ts := by
  obtain ⟨-, -, l, r, hap, -⟩ := findTransitionAux_eq_some h
  subst hap
  simp

/-- Claim C8: for valid state ids `a` and `b`, `find_transition a b` returns
the first stored transition (in storage order) from `a` to `b`, and `none`
exactly when no stored transition connects them; any returned transition is a
member of the stored transition list, so the implicit reflexive epsilon edge
(which is never stored) is never returned, even when `a = b`. -/
theorem C8_find_transition_first (m : FiniteStateMachine) (a b : Int)
    (_ha0 : 0 ≤ a) (_ha1 : a < m.states.length)
    (_hb0 : 0 ≤ b) (_hb1 : b < m.states.length) :
    (∀ t, m.find_transition a b = some t →
       t ∈ m.transitions ∧ t.from_state = a ∧ t.to_state = b ∧
       ∃ l r, m.transitions = l ++ t :: r ∧
         ∀ u ∈ l, ¬(u.from_state = a ∧ u.to_state = b)) ∧
    (m.find_transition a b = none ↔
       ∀ t ∈ m.transitions, ¬(t.from_state = a ∧ t.to_state = b)) := by
  constructor
  · intro t ht
    obtain ⟨h1, h2, l, r, hap, hl⟩ := findTransitionAux_eq_some ht
    exact ⟨findTransitionAux_mem ht, h1, h2, l, r, hap, hl⟩
  · exact findTransitionAux_eq_none

/-- Witness for C8 at the fixture: ids 1 and 2 are valid and the conclusion
holds there. -/
theorem C8_find_transition_first_witness :
    ((0 : Int) ≤ 1 ∧ (1 : Int) < fixtureFSM.states.length ∧
     (0 : Int) ≤ 2 ∧ (2 : Int) < fixtureFSM.states.length) ∧
    ((∀ t, fixtureFSM.find_transition 1 2 = some t →
       t ∈ fixtureFSM.transitions ∧ t.from_state = 1 ∧ t.to_state = 2 ∧
       ∃ l r, fixtureFSM.transitions = l ++ t :: r ∧
         ∀ u ∈ l, ¬(u.from_state = 1 ∧ u.to_state = 2)) ∧
    (fixtureFSM.find_transition 1 2 = none ↔
       ∀ t ∈ fixtureFSM.transitions, ¬(t.from_state = 1 ∧ t.to_state = 2))) :=
  ⟨⟨by decide, by decide, by decide, by decide⟩,
   C8_find_transition_first fixtureFSM 1 2 (by decide) (by decide) (by decide) (by decide)⟩

/-- Claim C10: `find_transition` is total over all integer arguments, including
negative ids and ids beyond the state list: it only scans the stored transition
list, returns the `none` sentinel exactly when no stored transition matches,
and otherwise returns a stored transition from `a` to `b`. -/
theorem C10_find_transition_total (m : FiniteStateMachine) (a b : Int) :
    (m.find_transition a b = none ↔
       ∀ t ∈ m.transitions, ¬(t.from_state = a ∧ t.to_state = b)) ∧
    (∀ t, m.find_transition a b = some t →
       t ∈ m.transitions ∧ t.from_state = a ∧ t.to_state = b) := by
  refine ⟨findTransitionAux_eq_none, fun t ht => ?_⟩
  obtain ⟨h1, h2, -⟩ := findTransitionAux_eq_some ht
  exact ⟨findTransitionAux_mem ht, h1, h2⟩

/-! ## `find_state` / `name` lemmas and claim C2 -/

theorem findStateAux_found : ∀ (states : List State) (nm : String) (i k : Nat),
    k < states.length → (states.getD k defaultState).name = nm →
    (∀ j, j < k → (states.getD j defaultState).name ≠ nm) →
    findStateAux states nm i = ((i + k : Nat) : Int)
  | [], _, _, k, hk, _, _ => by simp at hk
  | s :: rest, nm, i, 0, _, hname, _ => by
      have hs : s.name = nm := by simpa [List.getD] using hname
      simp [findStateAux, hs]
  | s :: rest, nm, i, Nat.succ k, hk, hname, hfirst => by
      have hs : s.name ≠ nm := by
        have := hfirst 0 (Nat.succ_pos k)
        simpa [List.getD] using this
      have ih := findStateAux_found rest nm (i + 1) k (by simpa using hk)
        (by simpa [List.getD] using hname)
        (fun j hj => by
          have := hfirst (j + 1) (by omega)
          simpa [List.getD] using this)
      rw [findStateAux, if_neg hs, ih]
      congr 1
      omega

/-- Claim C2 (code bug): the source `name` never returns a string — every call
raises because the method lacks its `self` parameter — so `find_state(name(s))`
can never be evaluated; yet the round-trip the claim (and the method's own
docstring) intends does hold of the underlying data: for a valid id `s` on a
machine with pairwise-distinct state names, `find_state` applied to the stored
display name `states[s].name` (which the docstring says `name` should return)
yields `s` itself. -/
theorem C2_find_state_name_roundtrip (m : FiniteStateMachine) (s : Int)
    (h0 : 0 ≤ s) (h1 : s < m.states.length)
    (hnames : (m.states.map State.name).Nodup) :
    m.name s = none ∧
    m.find_state ((pyGet m.states s defaultState).name) = s := by
  have hs : s.toNat < m.states.length := by
    rw [Int.toNat_lt h0]
    exact h1
  refine ⟨rfl, ?_⟩
  unfold FiniteStateMachine.find_state
  rw [pyGet_eq_getD h0 h1]
  rw [findStateAux_found m.states _ 0 s.toNat hs rfl ?_]
  · simp [Int.toNat_of_nonneg h0]
  · intro j hj heq
    have hjlen : j < m.states.length := lt_trans hj hs
    have hmap : (m.states.map State.name).get (Fin.mk j (by simpa using hjlen)) =
        (m.states.map State.name).get (Fin.mk s.toNat (by simpa using hs)) := by
      simp only [List.get_eq_getElem, List.getElem_map]
      rw [List.getD_eq_getElem _ _ hjlen, List.getD_eq_getElem _ _ hs] at heq
      exact heq
    have hfin := (List.Nodup.get_inj_iff hnames).mp hmap
    have hval : j = s.toNat := congrArg Fin.val hfin
    omega

/-- Witness for C2 at the fixture with `s = 1`: `name` yields no string, while
`find_state` on the stored display name "middle" returns 1. -/
theorem C2_find_state_name_roundtrip_witness :
    ((0 : Int) ≤ 1 ∧ (1 : Int) < fixtureFSM.states.length ∧
      (fixtureFSM.states.map State.name).Nodup) ∧
    (fixtureFSM.name 1 = none ∧
      fixtureFSM.find_state ((pyGet fixtureFSM.states 1 defaultState).name) = 1) :=
  ⟨⟨by decide, by decide, by decide⟩,
   C2_find_state_name_roundtrip fixtureFSM 1 (by decide) (by decide) (by decide)⟩

/-! ## `transition_to` claims C3 and C4 -/

/-- Claim C3: when at least one stored transition leads from the current state
to `tgt`, `transition_to tgt` succeeds: it chooses the first such transition in
storage order, dispatches `onStateExited(old)` to all listeners in registration
order, sets `current_state` to `tgt`, then dispatches `onStateEntered(tgt)`
followed by `onTransition(chosen)` to each listener in registration order. -/
theorem C3_transition_to_success (m : FiniteStateMachine) (tgt : Int)
    (h : ∃ t ∈ m.transitions, t.from_state = m.current_state ∧ t.to_state = tgt) :
    ∃ t l r, m.transitions = l ++ t :: r ∧
      t.from_state = m.current_state ∧ t.to_state = tgt ∧
      (∀ u ∈ l, ¬(u.from_state = m.current_state ∧ u.to_state = tgt)) ∧
      m.transition_to tgt =
        (none, { m with current_state := tgt },
         m.listeners.map (fun i => (i, Event.onStateExited m.current_state)) ++
           m.listeners.flatMap
             (fun i => [(i, Event.onStateEntered tgt), (i, Event.onTransition t)])) := by
  obtain ⟨u, hu⟩ := findTransitionAux_isSome h
  obtain ⟨h1, h2, l, r, hap, hl⟩ := findTransitionAux_eq_some hu
  refine ⟨u, l, r, hap, h1, h2, hl, ?_⟩
  unfold FiniteStateMachine.transition_to
  rw [show m.find_transition m.current_state tgt = some u from hu]

/-- Witness for C3: on the fixture with two listeners, the epsilon edge
`0 → 1` exists and the success conclusion holds. -/
theorem C3_transition_to_success_witness :
    (∃ t ∈ fixtureL.transitions,
       t.from_state = fixtureL.current_state ∧ t.to_state = 1) ∧
    (∃ t l r, fixtureL.transitions = l ++ t :: r ∧
      t.from_state = fixtureL.current_state ∧ t.to_state = 1 ∧
      (∀ u ∈ l, ¬(u.from_state = fixtureL.current_state ∧ u.to_state = 1)) ∧
      fixtureL.transition_to 1 =
        (none, { fixtureL with current_state := 1 },
         fixtureL.listeners.map (fun i => (i, Event.onStateExited fixtureL.current_state)) ++
           fixtureL.listeners.flatMap
             (fun i => [(i, Event.onStateEntered 1), (i, Event.onTransition t)]))) :=
  ⟨by decide, C3_transition_to_success fixtureL 1 (by decide)⟩

/-- Claim C4: when no stored transition leads from the current state to the
valid target `tgt`, `transition_to tgt` fails with an invalid-transition error
naming both states, the machine (in particular `current_state`) is unchanged,
and no listener callback is dispatched. -/
theorem C4_transition_to_failure (m : FiniteStateMachine) (tgt : Int)
    (hc0 : 0 ≤ m.current_state) (hc1 : m.current_state < m.states.length)
    (ht0 : 0 ≤ tgt) (ht1 : tgt < m.states.length)
    (h : ∀ t ∈ m.transitions, ¬(t.from_state = m.current_state ∧ t.to_state = tgt)) :
    m.transition_to tgt =
      (some ("No transition defined between " ++
              (m.states.getD m.current_state.toNat defaultState).name ++ " and " ++
              (m.states.getD tgt.toNat defaultState).name),
       m, []) := by
  have hn : m.find_transition m.current_state tgt = none := findTransitionAux_eq_none.mpr h
  unfold FiniteStateMachine.transition_to
  rw [hn]
  rw [pyGet_eq_getD hc0 hc1, pyGet_eq_getD ht0 ht1]

/-- Witness for C4: on the fixture (current state 0, two listeners) there is no
direct edge to state 2, and the failure conclusion holds. -/
theorem C4_transition_to_failure_witness :
    ((0 : Int) ≤ fixtureL.current_state ∧
      fixtureL.current_state < fixtureL.states.length ∧
      (0 : Int) ≤ 2 ∧ (2 : Int) < fixtureL.states.length ∧
      (∀ t ∈ fixtureL.transitions,
        ¬(t.from_state = fixtureL.current_state ∧ t.to_state = 2))) ∧
    fixtureL.transition_to 2 =
      (some ("No transition defined between " ++
              (fixtureL.states.getD fixtureL.current_state.toNat defaultState).name ++
              " and " ++ (fixtureL.states.getD (2 : Int).toNat defaultState).name),
       fixtureL, []) :=
  ⟨⟨by decide, by decide, by decide, by decide, by decide⟩,
   C4_transition_to_failure fixtureL 2 (by decide) (by decide) (by decide) (by decide)
     (by decide)⟩

/-! ## Loader lemmas and claim C9 -/

theorem modifyAt_length : ∀ (xs : List α) (i : Nat) (f : α → α),
    (modifyAt xs i f).length = xs.length
  | [], _, _ => rfl
  | _ :: _, 0, _ => rfl
  | x :: rest, Nat.succ i, f => by simp [modifyAt, modifyAt_length rest i f]

theorem modifyAt_getD_self : ∀ (xs : List α) (i : Nat) (f : α → α) (d : α),
    i < xs.length → (modifyAt xs i f).getD i d = f (xs.getD i d)
  | [], i, _, _, h => by simp at h
  | x :: rest, 0, f, d, _ => by simp [modifyAt, List.getD]
  | x :: rest, Nat.succ i, f, d, h => by
      simp only [modifyAt]
      simpa [List.getD] using modifyAt_getD_self rest i f d (by simpa using h)

theorem modifyAt_getD_ne : ∀ (xs : List α) (i j : Nat) (f : α → α) (d : α),
    i ≠ j → (modifyAt xs i f).getD j d = xs.getD j d
  | [], _, _, _, _, _ => by simp [modifyAt]
  | x :: rest, 0, 0, f, d, h => absurd rfl h
  | x :: rest, 0, Nat.succ j, f, d, _ => by simp [modifyAt, List.getD]
  | x :: rest, Nat.succ i, 0, f, d, _ => by simp [modifyAt, List.getD]
  | x :: rest, Nat.succ i, Nat.succ j, f, d, h => by
      simp only [modifyAt]
      simpa [List.getD] using modifyAt_getD_ne rest i j f d (fun hh => h (by omega))

theorem indexAux_eq_none : ∀ (xs : List String) (x : String) (i : Nat),
    indexAux xs x i = none ↔ x ∉ xs
  | [], x, i => by simp [indexAux]
  | s :: rest, x, i => by
      by_cases hs : s = x
      · simp [indexAux, if_pos hs, hs]
      · simp only [indexAux, if_neg hs, List.mem_cons]
        rw [indexAux_eq_none rest x (i + 1)]
        constructor
        · rintro hn (rfl | hm)
          · exact hs rfl
          · exact hn hm
        · intro hn hm
          exact hn (Or.inr hm)

theorem indexAux_isSome {xs : List String} {x : String} (i : Nat) (h : x ∈ xs) :
    ∃ k, indexAux xs x i = some k := by
  cases hv : indexAux xs x i with
  | some k => exact ⟨k, rfl⟩
  | none => exact absurd h ((indexAux_eq_none xs x i).mp hv)

theorem indexAux_some_bound : ∀ (xs : List String) (x : String) (i k : Nat),
    indexAux xs x i = some k → i ≤ k ∧ k - i < xs.length
  | [], x, i, k, h => by simp [indexAux] at h
  | s :: rest, x, i, k, h => by
      by_cases hs : s = x
      · rw [indexAux, if_pos hs, Option.some_inj] at h
        subst h
        exact ⟨le_refl i, by simp⟩
      · rw [indexAux, if_neg hs] at h
        have := indexAux_some_bound rest x (i + 1) k h
        constructor
        · omega
        · simp only [List.length_cons]
          omega

theorem load_states_map_name (rows : List String) :
    (load_states rows).map State.name = rows := by
  induction rows with
  | nil => rfl
  | cons r rest ih =>
      simp only [load_states, List.map_cons] at ih ⊢
      rw [ih]

theorem load_states_length (rows : List String) :
    (load_states rows).length = rows.length := by
  simp [load_states]

theorem load_states_linked (rows : List String) : LinkedInv (load_states rows) [] := by
  intro i hi
  rw [load_states_length] at hi
  constructor <;>
    · rw [List.getD_eq_getElem _ _ (by simpa [load_states_length] using hi)]
      simp [load_states]

theorem fromCsvLoop_err (state_names : List String) :
    ∀ (rows : List TransitionRow) (states : List State) (transitions : List Transition),
    (∃ r ∈ rows, r.fromName ∉ state_names ∨ r.toName ∉ state_names) →
    fromCsvLoop state_names states transitions rows = none := by
  intro rows
  induction rows with
  | nil => rintro states transitions ⟨r, hr, -⟩; simp at hr
  | cons row rest ih =>
      rintro states transitions ⟨r, hr, hbad⟩
      rw [fromCsvLoop]
      cases hfa : indexAux state_names row.fromName 0 with
      | none => rfl
      | some a =>
          cases hfb : indexAux state_names row.toName 0 with
          | none => rfl
          | some b =>
              have hfrom : row.fromName ∈ state_names := by
                by_contra hc
                rw [(indexAux_eq_none state_names row.fromName 0).mpr hc] at hfa
                exact Option.noConfusion hfa
              have hto : row.toName ∈ state_names := by
                by_contra hc
                rw [(indexAux_eq_none state_names row.toName 0).mpr hc] at hfb
                exact Option.noConfusion hfb
              rcases List.mem_cons.mp hr with rfl | hr'
              · rcases hbad with hb | hb
                · exact absurd hfrom hb
                · exact absurd hto hb
              · exact ih _ _ ⟨r, hr', hbad⟩

theorem linkedInv_step {states : List State} {transitions : List Transition}
    (hinv : LinkedInv states transitions) {a b : Nat} (act : Option String)
    (ha : a < states.length) (hb : b < states.length) :
    LinkedInv
      (modifyAt
        (modifyAt states a
          (fun s => { s with outgoing :=
            s.outgoing ++ [{ from_state := (a : Int), to_state := (b : Int), action := act }] }))
        b
        (fun s => { s with incoming :=
          s.incoming ++ [{ from_state := (a : Int), to_state := (b : Int), action := act }] }))
      (transitions ++ [{ from_state := (a : Int), to_state := (b : Int), action := act }]) := by
  intro i hi
  rw [modifyAt_length, modifyAt_length] at hi
  have hlen1 : (modifyAt states a
      (fun s => { s with outgoing :=
        s.outgoing ++ [{ from_state := (a : Int), to_state := (b : Int), action := act }] })).length
      = states.length := modifyAt_length _ _ _
  have houter : ((modifyAt
      (modifyAt states a
        (fun s => { s with outgoing :=
          s.outgoing ++ [{ from_state := (a : Int), to_state := (b : Int), action := act }] }))
      b
      (fun s => { s with incoming :=
        s.incoming ++ [{ from_state := (a : Int), to_state := (b : Int), action := act }] })).getD
        i defaultState).outgoing =
      ((modifyAt states a
        (fun s => { s with outgoing :=
          s.outgoing ++ [{ from_state := (a : Int), to_state := (b : Int), action := act }] })).getD
        i defaultState).outgoing := by
    by_cases hib : b = i
    · subst hib
      rw [modifyAt_getD_self _ _ _ _ (by rwa [hlen1])]
    · rw [modifyAt_getD_ne _ _ _ _ _ hib]
  have hinner : ((modifyAt states a
      (fun s => { s with outgoing :=
        s.outgoing ++ [{ from_state := (a : Int), to_state := (b : Int), action := act }] })).getD
        i defaultState).incoming = (states.getD i defaultState).incoming := by
    by_cases hia : a = i
    · subst hia
      rw [modifyAt_getD_self _ _ _ _ ha]
    · rw [modifyAt_getD_ne _ _ _ _ _ hia]
  constructor
  · rw [houter]
    by_cases hia : a = i
    · subst hia
      rw [modifyAt_getD_self _ _ _ _ ha]
      show (states.getD a defaultState).outgoing ++ _ = _
      rw [(hinv a ha).1, List.filter_append]
      simp [List.filter]
    · rw [modifyAt_getD_ne _ _ _ _ _ hia]
      rw [(hinv i hi).1, List.filter_append]
      have hne : ¬((a : Int) = (i : Int)) := by exact_mod_cast hia
      simp [List.filter, hne]
  · by_cases hib : b = i
    · subst hib
      rw [modifyAt_getD_self _ _ _ _ (by rwa [hlen1])]
      show ((modifyAt states a _).getD b defaultState).incoming ++ _ = _
      rw [hinner, (hinv b hb).2, List.filter_append]
      simp [List.filter]
    · rw [modifyAt_getD_ne _ _ _ _ _ hib, hinner]
      rw [(hinv i hi).2, List.filter_append]
      have hne : ¬((b : Int) = (i : Int)) := by exact_mod_cast hib
      simp [List.filter, hne]

theorem fromCsvLoop_ok (state_names : List String) :
    ∀ (rows : List TransitionRow) (states : List State) (transitions : List Transition),
    (∀ r ∈ rows, r.fromName ∈ state_names ∧ r.toName ∈ state_names) →
    states.length = state_names.length →
    LinkedInv states transitions →
    ∃ states' transitions',
      fromCsvLoop state_names states transitions rows = some (states', transitions') ∧
      states'.length = states.length ∧ LinkedInv states' transitions' := by
  intro rows
  induction rows with
  | nil =>
      intro states transitions _ _ hinv
      exact ⟨states, transitions, rfl, rfl, hinv⟩
  | cons row rest ih =>
      intro states transitions hall hlen hinv
      obtain ⟨hfrom, hto⟩ := hall row (List.mem_cons_self row rest)
      obtain ⟨a, ha⟩ := indexAux_isSome 0 hfrom
      obtain ⟨b, hb⟩ := indexAux_isSome 0 hto
      have halt : a < states.length := by
        have := indexAux_some_bound state_names row.fromName 0 a ha
        omega
      have hblt : b < states.length := by
        have := indexAux_some_bound state_names row.toName 0 b hb
        omega
      rw [fromCsvLoop, ha, hb]
      have hinv2 := linkedInv_step hinv
        (if row.action = "" then none else some row.action) halt hblt
      obtain ⟨sf, tf, heq, hlf, hif⟩ := ih _ _
        (fun r hr => hall r (List.mem_cons_of_mem row hr))
        (by rw [modifyAt_length, modifyAt_length]; exact hlen) hinv2
      refine ⟨sf, tf, heq, ?_, hif⟩
      rw [hlf, modifyAt_length, modifyAt_length]

/-- Claim C9: loading with a transition row whose source or destination name is
absent from the state table aborts construction (`from_csv` produces no
machine); on well-formed input a machine is produced whose every state's
outgoing/incoming list holds exactly the stored transitions leaving/entering
it, in storage order. -/
theorem C9_from_csv_loader (stateRows : List String) (rows : List TransitionRow) :
    ((∃ r ∈ rows, r.fromName ∉ stateRows ∨ r.toName ∉ stateRows) →
       from_csv stateRows rows = none) ∧
    ((∀ r ∈ rows, r.fromName ∈ stateRows ∧ r.toName ∈ stateRows) →
       ∃ m, from_csv stateRows rows = some m ∧ m.current_state = 0 ∧
         m.listeners = [] ∧ m.states.length = stateRows.length ∧
         LinkedInv m.states m.transitions) := by
  constructor
  · intro hbad
    show (match fromCsvLoop ((load_states stateRows).map State.name)
            (load_states stateRows) [] rows with
          | none => none
          | some r => some (FiniteStateMachine.init 0 r.1 r.2)) = none
    rw [load_states_map_name,
      fromCsvLoop_err stateRows rows (load_states stateRows) [] hbad]
  · intro hgood
    obtain ⟨sf, tf, heq, hlf, hif⟩ := fromCsvLoop_ok stateRows rows
      (load_states stateRows) [] hgood (load_states_length stateRows)
      (load_states_linked stateRows)
    refine ⟨FiniteStateMachine.init 0 sf tf, ?_, rfl, rfl, ?_, hif⟩
    · show (match fromCsvLoop ((load_states stateRows).map State.name)
              (load_states stateRows) [] rows with
            | none => none
            | some r => some (FiniteStateMachine.init 0 r.1 r.2)) = _
      rw [load_states_map_name, heq]
    · show sf.length = stateRows.length
      rw [hlf, load_states_length]
/-- Witness for C9: a malformed transition table (unknown destination name)
aborts the load, and a well-formed two-state table loads into a machine with
consistent outgoing/incoming lists. -/
theorem C9_from_csv_loader_witness :
    ((∃ r ∈ [TransitionRow.mk "a" "s" "x"],
        r.fromName ∉ ["s"] ∨ r.toName ∉ ["s"]) ∧
      from_csv ["s"] [TransitionRow.mk "a" "s" "x"] = none) ∧
    ((∀ r ∈ [TransitionRow.mk "a" "s" "u"],
        r.fromName ∈ ["s", "u"] ∧ r.toName ∈ ["s", "u"]) ∧
      ∃ m, from_csv ["s", "u"] [TransitionRow.mk "a" "s" "u"] = some m ∧
        m.current_state = 0 ∧ m.listeners = [] ∧ m.states.length = 2 ∧
        LinkedInv m.states m.transitions) :=
  ⟨⟨by decide, (C9_from_csv_loader ["s"] [TransitionRow.mk "a" "s" "x"]).1 (by decide)⟩,
   ⟨by decide, (C9_from_csv_loader ["s", "u"] [TransitionRow.mk "a" "s" "u"]).2 (by decide)⟩⟩

/-! ## Boolean-array bookkeeping lemmas for the traversal proofs -/

theorem getD_indep {v : List α} {j : Nat} (h : j < v.length) (d1 d2 : α) :
    v.getD j d1 = v.getD j d2 := by
  rw [List.getD_eq_getElem _ _ h, List.getD_eq_getElem _ _ h]

theorem pyGet_bool_unvis {v : List Bool} {x : Int} (h0 : 0 ≤ x)
    (h1 : x < v.length) :
    (pyGet v x true = false) = (v.getD x.toNat false = false) := by
  rw [pyGet_eq_getD h0 h1, getD_indep (by rw [Int.toNat_lt h0]; exact_mod_cast h1) true false]

theorem count_false_pos {v : List Bool} {j : Nat} (h : j < v.length)
    (hj : v.getD j false = false) : 0 < v.count false := by
  have : false ∈ v := by
    rw [List.getD_eq_getElem _ _ h] at hj
    rw [← hj]
    exact List.getElem_mem h
  exact List.count_pos_iff.mpr this

theorem count_false_set_true {v : List Bool} {j : Nat} (h : j < v.length)
    (hj : v.getD j false = false) :
    (v.set j true).count false + 1 = v.count false := by
  induction v generalizing j with
  | nil => simp at h
  | cons x rest ih =>
      cases j with
      | zero =>
          simp only [List.getD, List.getElem?_cons_zero, Option.getD_some] at hj
          subst hj
          simp [List.set, List.count_cons]
      | succ j =>
          have hj' : rest.getD j false = false := by simpa [List.getD] using hj
          have ihr := ih (by simpa using h) hj'
          simp only [List.set, List.count_cons]
          omega

theorem count_false_mono {v w : List Bool} (hlen : v.length = w.length)
    (hmono : ∀ j : Nat, v.getD j false = true → w.getD j false = true) :
    w.count false ≤ v.count false := by
  induction v generalizing w with
  | nil =>
      cases w with
      | nil => exact le_refl _
      | cons y ys => simp at hlen
  | cons x rest ih =>
      cases w with
      | nil => simp at hlen
      | cons y ys =>
          have hhead : x = true → y = true := by
            have := hmono 0
            simpa [List.getD] using this
          have htail : ys.count false ≤ rest.count false := by
            refine ih (by simpa using hlen) ?_
            intro j hj
            have := hmono (j + 1)
            simpa [List.getD] using this hj
          simp only [List.count_cons]
          cases x with
          | true => simp [hhead rfl]; omega
          | false => cases y <;> simp <;> omega

theorem count_false_replicate (n : Nat) :
    (List.replicate n false).count false = n := by
  simp [List.count_replicate]

theorem getD_set_true_unvis {v : List Bool} {j k : Nat}
    (h : (v.set j true).getD k false = false) : v.getD k false = false := by
  by_cases hjk : j = k
  · subst hjk
    by_cases hj : j < v.length
    · rw [getD_set_self hj] at h
      exact absurd h (by simp)
    · rw [List.getD_eq_default _ _ (by omega)]
  · rwa [getD_set_ne hjk] at h

theorem getD_set_true_cases {v : List Bool} {j k : Nat}
    (h : (v.set j true).getD k false = true) :
    v.getD k false = true ∨ k = j := by
  by_cases hjk : j = k
  · exact Or.inr hjk.symm
  · rw [getD_set_ne hjk] at h
    exact Or.inl h

/-! ## Well-formedness consequences -/

theorem wf_outgoing {m : FiniteStateMachine} (hwf : Wf m) {s : Int}
    (h0 : 0 ≤ s) (h1 : s < m.states.length) :
    ∀ t ∈ outgoingOf m s, t ∈ m.transitions ∧ t.from_state = s ∧
      (0 ≤ t.to_state ∧ t.to_state < m.states.length) := by
  intro t ht
  have hsn : s.toNat < m.states.length := by
    rw [Int.toNat_lt h0]
    exact_mod_cast h1
  rw [outgoingOf, pyGet_eq_getD h0 h1] at ht
  rw [(hwf.2.2 s.toNat hsn).1] at ht
  rw [List.mem_filter] at ht
  obtain ⟨hmem, hfrom⟩ := ht
  have hfrom' : t.from_state = (s.toNat : Int) := by
    exact of_decide_eq_true hfrom
  refine ⟨hmem, ?_, (hwf.2.1 t hmem).2⟩
  rw [hfrom', Int.toNat_of_nonneg h0]

theorem wf_mem_outgoing {m : FiniteStateMachine} (hwf : Wf m) {s : Int}
    (h0 : 0 ≤ s) (h1 : s < m.states.length) {t : Transition}
    (hmem : t ∈ m.transitions) (hfrom : t.from_state = s) :
    t ∈ outgoingOf m s := by
  have hsn : s.toNat < m.states.length := by
    rw [Int.toNat_lt h0]
    exact_mod_cast h1
  rw [outgoingOf, pyGet_eq_getD h0 h1, (hwf.2.2 s.toNat hsn).1, List.mem_filter]
  refine ⟨hmem, ?_⟩
  rw [decide_eq_true_eq, hfrom, Int.toNat_of_nonneg h0]

/-! ## `SimReach` helper lemmas -/

theorem SimReach.ne_root {m : FiniteStateMachine} {a : Option String}
    {root x : Int} (h : SimReach m a root x) : x ≠ root := by
  cases h with
  | hop _ hne => exact hne
  | eps _ _ hne => exact hne

theorem SimReach.in_range {m : FiniteStateMachine} (hwf : Wf m)
    {a : Option String} {root x : Int} (h : SimReach m a root x) :
    0 ≤ x ∧ x < m.states.length := by
  induction h with
  | hop hstep _ =>
      obtain ⟨t, hmem, -, hto, -⟩ := hstep
      rw [← hto]
      exact (hwf.2.1 t hmem).2
  | eps _ hstep _ _ =>
      obtain ⟨t, hmem, -, hto, -⟩ := hstep
      rw [← hto]
      exact (hwf.2.1 t hmem).2

theorem SimReach.has_hop {m : FiniteStateMachine} {a : Option String}
    {root x : Int} (h : SimReach m a root x) :
    ∃ v, actionStep m a root v := by
  induction h with
  | hop hstep _ => exact ⟨_, hstep⟩
  | eps _ _ _ ih => exact ih

/-! ## Basic invariants of the `__perform_action` traversal

For both mutual functions: the visited array keeps its length, only gains
`true` entries, every newly-true entry is the entered state or a produced
state, and every produced state is in range, was unvisited on entry, and (for
`performAction`) differs from the entered state. -/

theorem performLoop_basic_of (m : FiniteStateMachine) (fuel : Nat)
    (hpa : ∀ (a : Option String) (s : Int) (v : List Bool),
      0 ≤ s → s < m.states.length → v.length = m.states.length →
      (performAction m fuel a s v).2.length = m.states.length ∧
      (∀ j : Nat, v.getD j false = true →
        (performAction m fuel a s v).2.getD j false = true) ∧
      (∀ j : Nat, j < m.states.length →
        (performAction m fuel a s v).2.getD j false = true →
        v.getD j false = true ∨ (j : Int) = s ∨
          (j : Int) ∈ (performAction m fuel a s v).1) ∧
      (∀ x ∈ (performAction m fuel a s v).1,
        (0 ≤ x ∧ x < m.states.length) ∧ v.getD x.toNat false = false ∧ x ≠ s)) :
    ∀ (a : Option String) (ts : List Transition) (v : List Bool),
      (∀ t ∈ ts, 0 ≤ t.to_state ∧ t.to_state < m.states.length) →
      v.length = m.states.length →
      (performLoop (performAction m fuel) a ts v).2.length = m.states.length ∧
      (∀ j : Nat, v.getD j false = true →
        (performLoop (performAction m fuel) a ts v).2.getD j false = true) ∧
      (∀ j : Nat, j < m.states.length →
        (performLoop (performAction m fuel) a ts v).2.getD j false = true →
        v.getD j false = true ∨ (j : Int) ∈ (performLoop (performAction m fuel) a ts v).1) ∧
      (∀ x ∈ (performLoop (performAction m fuel) a ts v).1,
        (0 ≤ x ∧ x < m.states.length) ∧ v.getD x.toNat false = false) := by
  intro a ts
  induction ts with
  | nil =>
      intro v _ hv
      rw [performLoop]
      exact ⟨hv, fun j hj => hj, fun j _ hj => Or.inl hj, by simp⟩
  | cons t rest ih =>
      intro v hts hv
      obtain ⟨hto0, hto1⟩ := hts t (List.mem_cons_self t rest)
      by_cases hc : t.action = a ∧ pyGet v t.to_state true = false
      · rw [performLoop, if_pos hc]
        obtain ⟨hl1, hm1, hn1, ho1⟩ := hpa none t.to_state v hto0 hto1 hv
        obtain ⟨hl2, hm2, hn2, ho2⟩ := ih (performAction m fuel none t.to_state v).2
          (fun u hu => hts u (List.mem_cons_of_mem t hu)) hl1
        refine ⟨hl2, ?_, ?_, ?_⟩
        · intro j hj
          exact hm2 j (hm1 j hj)
        · intro j hjn hj
          rcases hn2 j hjn hj with hj2 | hj2
          · rcases hn1 j hjn hj2 with hj3 | hj3 | hj3
            · exact Or.inl hj3
            · right; simp [hj3]
            · right; simp [hj3]
          · right; simp [hj2]
        · intro x hx
          rcases List.mem_cons.mp hx with rfl | hx'
          · refine ⟨⟨hto0, hto1⟩, ?_⟩
            have hvx := hc.2
            rwa [pyGet_bool_unvis hto0 (by rw [hv]; exact_mod_cast hto1)] at hvx
          · rcases List.mem_append.mp hx' with hxs | hxs
            · exact ⟨(ho1 x hxs).1, (ho1 x hxs).2.1⟩
            · obtain ⟨hxr, hxv⟩ := ho2 x hxs
              refine ⟨hxr, ?_⟩
              cases hb : v.getD x.toNat false with
              | false => rfl
              | true =>
                  have hcontra := hm1 x.toNat hb
                  rw [hcontra] at hxv
                  exact Bool.noConfusion hxv
      · rw [performLoop, if_neg hc]
        exact ih v (fun u hu => hts u (List.mem_cons_of_mem t hu)) hv

theorem performAction_basic (m : FiniteStateMachine) (hwf : Wf m) :
    ∀ (fuel : Nat) (a : Option String) (s : Int) (v : List Bool),
      0 ≤ s → s < m.states.length → v.length = m.states.length →
      (performAction m fuel a s v).2.length = m.states.length ∧
      (∀ j : Nat, v.getD j false = true →
        (performAction m fuel a s v).2.getD j false = true) ∧
      (∀ j : Nat, j < m.states.length →
        (performAction m fuel a s v).2.getD j false = true →
        v.getD j false = true ∨ (j : Int) = s ∨
          (j : Int) ∈ (performAction m fuel a s v).1) ∧
      (∀ x ∈ (performAction m fuel a s v).1,
        (0 ≤ x ∧ x < m.states.length) ∧ v.getD x.toNat false = false ∧ x ≠ s) := by
  intro fuel
  induction fuel with
  | zero =>
      intro a s v _ _ hv
      rw [performAction]
      exact ⟨hv, fun j hj => hj, fun j _ hj => Or.inl hj, by simp⟩
  | succ f ihf =>
      intro a s v hs0 hs1 hv
      have hsj : s.toNat < v.length := by
        rw [hv, Int.toNat_lt hs0]
        exact_mod_cast hs1
      rw [performAction]
      rw [pySet_eq_set hs0 (by rw [hv]; exact hs1) true]
      have hts := wf_outgoing hwf hs0 hs1
      obtain ⟨hl, hm, hn, ho⟩ := performLoop_basic_of m f ihf a (outgoingOf m s)
        (v.set s.toNat true) (fun t ht => (hts t ht).2.2)
        (by rw [List.length_set]; exact hv)
      refine ⟨hl, ?_, ?_, ?_⟩
      · intro j hj
        apply hm
        by_cases hjs : s.toNat = j
        · subst hjs
          rw [getD_set_self hsj]
        · rwa [getD_set_ne hjs]
      · intro j hjn hj
        rcases hn j hjn hj with hj2 | hj2
        · rcases getD_set_true_cases hj2 with hj3 | hj3
          · exact Or.inl hj3
          · right; left
            rw [hj3, Int.toNat_of_nonneg hs0]
        · right; right
          exact hj2
      · intro x hx
        obtain ⟨hxr, hxv⟩ := ho x hx
        refine ⟨hxr, getD_set_true_unvis hxv, ?_⟩
        intro hxs
        subst hxs
        rw [getD_set_self hsj] at hxv
        exact absurd hxv (by simp)

theorem performLoop_basic (m : FiniteStateMachine) (hwf : Wf m) (fuel : Nat) :
    ∀ (a : Option String) (ts : List Transition) (v : List Bool),
      (∀ t ∈ ts, 0 ≤ t.to_state ∧ t.to_state < m.states.length) →
      v.length = m.states.length →
      (performLoop (performAction m fuel) a ts v).2.length = m.states.length ∧
      (∀ j : Nat, v.getD j false = true →
        (performLoop (performAction m fuel) a ts v).2.getD j false = true) ∧
      (∀ j : Nat, j < m.states.length →
        (performLoop (performAction m fuel) a ts v).2.getD j false = true →
        v.getD j false = true ∨ (j : Int) ∈ (performLoop (performAction m fuel) a ts v).1) ∧
      (∀ x ∈ (performLoop (performAction m fuel) a ts v).1,
        (0 ≤ x ∧ x < m.states.length) ∧ v.getD x.toNat false = false) :=
  performLoop_basic_of m fuel (performAction_basic m hwf fuel)

/-! ## Fuel-sufficiency invariants of the traversal

With fuel at least the number of unvisited entries, `performAction` marks the
entered state, visits every matching successor, leaves the produced states
epsilon-closed in the final visited array, and produces no duplicates. -/

theorem performLoop_fuel_of (m : FiniteStateMachine) (hwf : Wf m) (fuel : Nat)
    (hpa : ∀ (a : Option String) (s : Int) (v : List Bool),
      0 ≤ s → s < m.states.length → v.length = m.states.length →
      v.getD s.toNat false = false → v.count false ≤ fuel →
      (performAction m fuel a s v).2.getD s.toNat false = true ∧
      (∀ t ∈ outgoingOf m s, t.action = a →
        (performAction m fuel a s v).2.getD t.to_state.toNat false = true) ∧
      (∀ x ∈ (performAction m fuel a s v).1, ∀ t ∈ m.transitions,
        t.from_state = x → t.action = none →
        (performAction m fuel a s v).2.getD t.to_state.toNat false = true) ∧
      (∀ x ∈ (performAction m fuel a s v).1,
        (performAction m fuel a s v).2.getD x.toNat false = true) ∧
      (performAction m fuel a s v).1.Nodup) :
    ∀ (a : Option String) (ts : List Transition) (v : List Bool),
      (∀ t ∈ ts, 0 ≤ t.to_state ∧ t.to_state < m.states.length) →
      v.length = m.states.length → v.count false ≤ fuel →
      (∀ t ∈ ts, t.action = a →
        (performLoop (performAction m fuel) a ts v).2.getD t.to_state.toNat false = true) ∧
      (∀ x ∈ (performLoop (performAction m fuel) a ts v).1, ∀ t ∈ m.transitions,
        t.from_state = x → t.action = none →
        (performLoop (performAction m fuel) a ts v).2.getD t.to_state.toNat false = true) ∧
      (∀ x ∈ (performLoop (performAction m fuel) a ts v).1,
        (performLoop (performAction m fuel) a ts v).2.getD x.toNat false = true) ∧
      (performLoop (performAction m fuel) a ts v).1.Nodup := by
  intro a ts
  induction ts with
  | nil =>
      intro v _ _ _
      rw [performLoop]
      exact ⟨by simp, by simp, by simp, List.nodup_nil⟩
  | cons t rest ih =>
      intro v hts hv hfuel
      obtain ⟨hto0, hto1⟩ := hts t (List.mem_cons_self t rest)
      have htoj : t.to_state.toNat < v.length := by
        rw [hv, Int.toNat_lt hto0]
        exact_mod_cast hto1
      by_cases hc : t.action = a ∧ pyGet v t.to_state true = false
      · rw [performLoop, if_pos hc]
        have hunvis1 : v.getD t.to_state.toNat false = false := by
          have hvx := hc.2
          rwa [pyGet_bool_unvis hto0 (by rw [hv]; exact hto1)] at hvx
        obtain ⟨hl1, hm1, hn1, ho1⟩ :=
          performAction_basic m hwf fuel none t.to_state v hto0 hto1 hv
        obtain ⟨ha1, hb1, hc1, hd1, he1⟩ :=
          hpa none t.to_state v hto0 hto1 hv hunvis1 hfuel
        have hfuel2 : (performAction m fuel none t.to_state v).2.count false ≤ fuel :=
          le_trans (count_false_mono (by rw [hv, hl1]) hm1) hfuel
        obtain ⟨hl2, hm2, hn2, ho2⟩ := performLoop_basic m hwf fuel a rest
          (performAction m fuel none t.to_state v).2
          (fun u hu => hts u (List.mem_cons_of_mem t hu)) hl1
        obtain ⟨hb2, hc2, hd2, he2⟩ := ih (performAction m fuel none t.to_state v).2
          (fun u hu => hts u (List.mem_cons_of_mem t hu)) hl1 hfuel2
        refine ⟨?_, ?_, ?_, ?_⟩
        · intro u hu hua
          rcases List.mem_cons.mp hu with rfl | hu'
          · exact hm2 _ ha1
          · exact hb2 u hu' hua
        · intro x hx u hu hufrom hueps
          rcases List.mem_cons.mp hx with rfl | hx'
          · have humem : u ∈ outgoingOf m t.to_state :=
              wf_mem_outgoing hwf hto0 hto1 hu hufrom
            exact hm2 _ (hb1 u humem hueps)
          · rcases List.mem_append.mp hx' with hxs | hxs
            · exact hm2 _ (hc1 x hxs u hu hufrom hueps)
            · exact hc2 x hxs u hu hufrom hueps
        · intro x hx
          rcases List.mem_cons.mp hx with rfl | hx'
          · exact hm2 _ ha1
          · rcases List.mem_append.mp hx' with hxs | hxs
            · exact hm2 _ (hd1 x hxs)
            · exact hd2 x hxs
        · rw [List.nodup_cons]
          constructor
          · intro hmem
            rcases List.mem_append.mp hmem with hxs | hxs
            · exact (ho1 _ hxs).2.2 rfl
            · have hfalse := (ho2 _ hxs).2
              rw [ha1] at hfalse
              exact Bool.noConfusion hfalse
          · rw [List.nodup_append]
            refine ⟨he1, he2, ?_⟩
            intro x hxs hxm
            have htrue := hd1 x hxs
            have hfalse := (ho2 x hxm).2
            rw [htrue] at hfalse
            exact Bool.noConfusion hfalse
      · rw [performLoop, if_neg hc]
        obtain ⟨hl2, hm2, hn2, ho2⟩ := performLoop_basic m hwf fuel a rest v
          (fun u hu => hts u (List.mem_cons_of_mem t hu)) hv
        obtain ⟨hb2, hc2, hd2, he2⟩ := ih v
          (fun u hu => hts u (List.mem_cons_of_mem t hu)) hv hfuel
        refine ⟨?_, hc2, hd2, he2⟩
        intro u hu hua
        rcases List.mem_cons.mp hu with rfl | hu'
        · have hvis : pyGet v u.to_state true = true := by
            cases hg : pyGet v u.to_state true with
            | false => exact absurd ⟨hua, hg⟩ hc
            | true => rfl
          have hvis' : v.getD u.to_state.toNat false = true := by
            rw [pyGet_eq_getD hto0 (by rw [hv]; exact hto1)] at hvis
            rw [getD_indep htoj false true]
            exact hvis
          exact hm2 _ hvis'
        · exact hb2 u hu' hua

theorem performAction_fuel (m : FiniteStateMachine) (hwf : Wf m) :
    ∀ (fuel : Nat) (a : Option String) (s : Int) (v : List Bool),
      0 ≤ s → s < m.states.length → v.length = m.states.length →
      v.getD s.toNat false = false → v.count false ≤ fuel →
      (performAction m fuel a s v).2.getD s.toNat false = true ∧
      (∀ t ∈ outgoingOf m s, t.action = a →
        (performAction m fuel a s v).2.getD t.to_state.toNat false = true) ∧
      (∀ x ∈ (performAction m fuel a s v).1, ∀ t ∈ m.transitions,
        t.from_state = x → t.action = none →
        (performAction m fuel a s v).2.getD t.to_state.toNat false = true) ∧
      (∀ x ∈ (performAction m fuel a s v).1,
        (performAction m fuel a s v).2.getD x.toNat false = true) ∧
      (performAction m fuel a s v).1.Nodup := by
  intro fuel
  induction fuel with
  | zero =>
      intro a s v hs0 hs1 hv hunvis hfuel
      have hsj : s.toNat < v.length := by
        rw [hv, Int.toNat_lt hs0]
        exact_mod_cast hs1
      have := count_false_pos hsj hunvis
      omega
  | succ f ihf =>
      intro a s v hs0 hs1 hv hunvis hfuel
      have hsj : s.toNat < v.length := by
        rw [hv, Int.toNat_lt hs0]
        exact_mod_cast hs1
      rw [performAction]
      rw [pySet_eq_set hs0 (by rw [hv]; exact hs1) true]
      have hsetlen : (v.set s.toNat true).length = m.states.length := by
        rw [List.length_set]
        exact hv
      have hfuel' : (v.set s.toNat true).count false ≤ f := by
        have := count_false_set_true hsj hunvis
        omega
      have hts := wf_outgoing hwf hs0 hs1
      obtain ⟨hl, hm, hn, ho⟩ := performLoop_basic m hwf f a (outgoingOf m s)
        (v.set s.toNat true) (fun t ht => (hts t ht).2.2) hsetlen
      obtain ⟨hb', hc', hd', he'⟩ := performLoop_fuel_of m hwf f ihf a (outgoingOf m s)
        (v.set s.toNat true) (fun t ht => (hts t ht).2.2) hsetlen hfuel'
      refine ⟨?_, hb', hc', hd', he'⟩
      exact hm s.toNat (getD_set_self hsj true false)

theorem performLoop_fuel (m : FiniteStateMachine) (hwf : Wf m) (fuel : Nat) :
    ∀ (a : Option String) (ts : List Transition) (v : List Bool),
      (∀ t ∈ ts, 0 ≤ t.to_state ∧ t.to_state < m.states.length) →
      v.length = m.states.length → v.count false ≤ fuel →
      (∀ t ∈ ts, t.action = a →
        (performLoop (performAction m fuel) a ts v).2.getD t.to_state.toNat false = true) ∧
      (∀ x ∈ (performLoop (performAction m fuel) a ts v).1, ∀ t ∈ m.transitions,
        t.from_state = x → t.action = none →
        (performLoop (performAction m fuel) a ts v).2.getD t.to_state.toNat false = true) ∧
      (∀ x ∈ (performLoop (performAction m fuel) a ts v).1,
        (performLoop (performAction m fuel) a ts v).2.getD x.toNat false = true) ∧
      (performLoop (performAction m fuel) a ts v).1.Nodup :=
  performLoop_fuel_of m hwf fuel (performAction_fuel m hwf fuel)

/-! ## Soundness of the traversal

Every state produced by `__perform_action` is reachable from the root by one
hop with the linked action followed by epsilon hops avoiding the root. -/

theorem performLoop_sound_of (m : FiniteStateMachine) (hwf : Wf m)
    (a0 : Option String) (root : Int) (fuel : Nat)
    (hpa : ∀ (A : Option String) (s : Int) (v : List Bool),
      0 ≤ s → s < m.states.length → v.length = m.states.length →
      (s = root ∨ v.getD root.toNat false = true) →
      (∀ t ∈ outgoingOf m s, t.action = A → t.to_state ≠ root →
        SimReach m a0 root t.to_state) →
      ∀ x ∈ (performAction m fuel A s v).1, SimReach m a0 root x) :
    ∀ (A : Option String) (ts : List Transition) (v : List Bool),
      (∀ t ∈ ts, 0 ≤ t.to_state ∧ t.to_state < m.states.length) →
      v.length = m.states.length →
      v.getD root.toNat false = true →
      (∀ t ∈ ts, t.action = A → t.to_state ≠ root → SimReach m a0 root t.to_state) →
      ∀ x ∈ (performLoop (performAction m fuel) A ts v).1, SimReach m a0 root x := by
  intro A ts
  induction ts with
  | nil =>
      intro v _ _ _ _ x hx
      rw [performLoop] at hx
      simp at hx
  | cons t rest ih =>
      intro v hts hv hrm hlink x hx
      obtain ⟨hto0, hto1⟩ := hts t (List.mem_cons_self t rest)
      by_cases hc : t.action = A ∧ pyGet v t.to_state true = false
      · rw [performLoop, if_pos hc] at hx
        have hunvis1 : v.getD t.to_state.toNat false = false := by
          have hvx := hc.2
          rwa [pyGet_bool_unvis hto0 (by rw [hv]; exact hto1)] at hvx
        have htone : t.to_state ≠ root := by
          intro heq
          rw [heq] at hunvis1
          rw [hrm] at hunvis1
          exact Bool.noConfusion hunvis1
        have hreach_to : SimReach m a0 root t.to_state := hlink t (List.mem_cons_self t rest) hc.1 htone
        obtain ⟨hl1, hm1, hn1, ho1⟩ :=
          performAction_basic m hwf fuel none t.to_state v hto0 hto1 hv
        rcases List.mem_cons.mp hx with rfl | hx'
        · exact hreach_to
        · rcases List.mem_append.mp hx' with hxs | hxs
          · refine hpa none t.to_state v hto0 hto1 hv (Or.inr hrm) ?_ x hxs
            intro u hu hueps hune
            obtain ⟨humem, hufrom, -⟩ := wf_outgoing hwf hto0 hto1 u hu
            exact SimReach.eps hreach_to ⟨u, humem, hufrom, rfl, hueps⟩ hune
          · refine ih (performAction m fuel none t.to_state v).2
              (fun u hu => hts u (List.mem_cons_of_mem t hu)) hl1
              (hm1 root.toNat hrm)
              (fun u hu hua hune => hlink u (List.mem_cons_of_mem t hu) hua hune)
              x hxs
      · rw [performLoop, if_neg hc] at hx
        exact ih v (fun u hu => hts u (List.mem_cons_of_mem t hu)) hv hrm
          (fun u hu hua hune => hlink u (List.mem_cons_of_mem t hu) hua hune) x hx

theorem performAction_sound (m : FiniteStateMachine) (hwf : Wf m)
    (a0 : Option String) (root : Int) :
    ∀ (fuel : Nat) (A : Option String) (s : Int) (v : List Bool),
      0 ≤ s → s < m.states.length → v.length = m.states.length →
      (s = root ∨ v.getD root.toNat false = true) →
      (∀ t ∈ outgoingOf m s, t.action = A → t.to_state ≠ root →
        SimReach m a0 root t.to_state) →
      ∀ x ∈ (performAction m fuel A s v).1, SimReach m a0 root x := by
  intro fuel
  induction fuel with
  | zero =>
      intro A s v _ _ _ _ _ x hx
      rw [performAction] at hx
      simp at hx
  | succ f ihf =>
      intro A s v hs0 hs1 hv hrm hlink x hx
      have hsj : s.toNat < v.length := by
        rw [hv, Int.toNat_lt hs0]
        exact_mod_cast hs1
      rw [performAction] at hx
      rw [pySet_eq_set hs0 (by rw [hv]; exact hs1) true] at hx
      have hrm' : (v.set s.toNat true).getD root.toNat false = true := by
        rcases hrm with rfl | hmark
        · rw [getD_set_self hsj]
        · by_cases hjs : s.toNat = root.toNat
          · rw [hjs, getD_set_self (by rwa [← hjs])]
          · rwa [getD_set_ne hjs]
      exact performLoop_sound_of m hwf a0 root f ihf A (outgoingOf m s)
        (v.set s.toNat true) (fun t ht => (wf_outgoing hwf hs0 hs1 t ht).2.2)
        (by rw [List.length_set]; exact hv) hrm' hlink x hx

/-! ## Claim C5: counterexample, amended theorem, witness -/

theorem getD_replicate_false (n j : Nat) :
    (List.replicate n false).getD j false = false := by
  by_cases hj : j < n
  · rw [List.getD_eq_getElem _ _ (by simpa using hj)]
    simp
  · rw [List.getD_eq_default _ _ (by simpa using hj)]

/-- Claim C5 counterexample: on `cexC5` (current state 0; transitions
`a: 0 → 1`, `eps: 1 → 0`, `eps: 0 → 2`), `simulate_action "a"` returns `[1]`,
yet state 2 lies in the transitive epsilon-closure of the target 1 and differs
from the root, so the claimed result set (`{1, 2}`) disagrees with the code. -/
theorem C5_counterexample :
    (cexC5.simulate_action (some "a")).1 = [1] ∧
    claimC5Set cexC5 (some "a") 2 ∧
    (2 : Int) ∉ (cexC5.simulate_action (some "a")).1 := by
  refine ⟨by decide, ⟨by decide, 1,
    ⟨ca01, by decide, by decide, by decide, by decide⟩, ?_⟩, by decide⟩
  have h10 : epsStep cexC5 1 0 := ⟨ce10, by decide, by decide, by decide, by decide⟩
  have h02 : epsStep cexC5 0 2 := ⟨ce02, by decide, by decide, by decide, by decide⟩
  exact Relation.ReflTransGen.head h10 (Relation.ReflTransGen.single h02)

/-- Claim C5 (amended): for a well-formed machine, `simulate_action a` returns
a duplicate-free sequence that excludes the root `current_state`, whose members
are exactly the states reachable from the root by one `a`-labeled hop followed
by a chain of epsilon hops in which the root is never re-entered (so states of
a target's epsilon-closure reachable only through the root are omitted), and it
returns the empty sequence when no outgoing transition of the current state
carries label `a`. -/
theorem C5_simulate_action_amended (m : FiniteStateMachine) (a : Option String)
    (hwf : Wf m) :
    (m.simulate_action a).1.Nodup ∧
    m.current_state ∉ (m.simulate_action a).1 ∧
    (∀ x, x ∈ (m.simulate_action a).1 ↔ SimReach m a m.current_state x) ∧
    ((∀ t ∈ m.transitions, t.from_state = m.current_state → t.action ≠ a) →
      (m.simulate_action a).1 = []) := by
  obtain ⟨⟨hr0, hr1⟩, hbounds, houts⟩ := hwf
  have hwf' : Wf m := ⟨⟨hr0, hr1⟩, hbounds, houts⟩
  have hlen : (List.replicate m.states.length false).length = m.states.length := by
    simp
  have hunvis : (List.replicate m.states.length false).getD
      m.current_state.toNat false = false := getD_replicate_false _ _
  have hfuel : (List.replicate m.states.length false).count false ≤
      m.states.length + 1 := by
    rw [count_false_replicate]
    omega
  obtain ⟨hbl, hbm, hbn, hbo⟩ := performAction_basic m hwf' (m.states.length + 1)
    a m.current_state (List.replicate m.states.length false) hr0 hr1 hlen
  obtain ⟨hfa, hfb, hfc, hfd, hfe⟩ := performAction_fuel m hwf' (m.states.length + 1)
    a m.current_state (List.replicate m.states.length false) hr0 hr1 hlen hunvis hfuel
  have hsim : (m.simulate_action a).1 =
      (performAction m (m.states.length + 1) a m.current_state
        (List.replicate m.states.length false)).1 := rfl
  have hmem_of_marked : ∀ x : Int, 0 ≤ x → x < m.states.length →
      (performAction m (m.states.length + 1) a m.current_state
        (List.replicate m.states.length false)).2.getD x.toNat false = true →
      x ≠ m.current_state →
      x ∈ (performAction m (m.states.length + 1) a m.current_state
        (List.replicate m.states.length false)).1 := by
    intro x hx0 hx1 hmark hne
    have hxj : x.toNat < m.states.length := by
      rw [Int.toNat_lt hx0]
      exact_mod_cast hx1
    rcases hbn x.toNat hxj hmark with hv0 | hroot | hmem
    · rw [getD_replicate_false] at hv0
      exact Bool.noConfusion hv0
    · rw [Int.toNat_of_nonneg hx0] at hroot
      exact absurd hroot hne
    · rwa [Int.toNat_of_nonneg hx0] at hmem
  have hcomplete : ∀ x, SimReach m a m.current_state x →
      x ∈ (performAction m (m.states.length + 1) a m.current_state
        (List.replicate m.states.length false)).1 := by
    intro x hx
    induction hx with
    | hop hstep hne =>
        obtain ⟨t, hmem, hfrom, hto, haction⟩ := hstep
        obtain ⟨ht0, ht1⟩ := (hbounds t hmem).2
        have htout : t ∈ outgoingOf m m.current_state :=
          wf_mem_outgoing hwf' hr0 hr1 hmem hfrom
        have hmark := hfb t htout haction
        rw [hto] at hmark ht0 ht1
        exact hmem_of_marked _ ht0 ht1 hmark hne
    | eps hu hstep hne ihu =>
        obtain ⟨t, hmem, hfrom, hto, haction⟩ := hstep
        obtain ⟨ht0, ht1⟩ := (hbounds t hmem).2
        have hmark := hfc _ ihu t hmem hfrom haction
        rw [hto] at hmark ht0 ht1
        exact hmem_of_marked _ ht0 ht1 hmark hne
  have hsound : ∀ x, x ∈ (performAction m (m.states.length + 1) a m.current_state
      (List.replicate m.states.length false)).1 → SimReach m a m.current_state x := by
    intro x hx
    refine performAction_sound m hwf' a m.current_state (m.states.length + 1) a
      m.current_state (List.replicate m.states.length false) hr0 hr1 hlen
      (Or.inl rfl) ?_ x hx
    intro t ht haction hne
    obtain ⟨hmem, hfrom, -⟩ := wf_outgoing hwf' hr0 hr1 t ht
    exact SimReach.hop ⟨t, hmem, hfrom, rfl, haction⟩ hne
  rw [hsim]
  refine ⟨hfe, ?_, ?_, ?_⟩
  · intro hmem
    exact (hbo _ hmem).2.2 rfl
  · intro x
    exact ⟨hsound x, hcomplete x⟩
  · intro hno
    rw [List.eq_nil_iff_forall_not_mem]
    intro x hx
    obtain ⟨v, t, hmem, hfrom, -, haction⟩ := (hsound x hx).has_hop
    exact hno t hmem hfrom haction

/-- Witness for the amended C5 at the counterexample machine (which is
well-formed). -/
theorem C5_simulate_action_amended_witness :
    Wf cexC5 ∧
    ((cexC5.simulate_action (some "a")).1.Nodup ∧
     cexC5.current_state ∉ (cexC5.simulate_action (some "a")).1 ∧
     (∀ x, x ∈ (cexC5.simulate_action (some "a")).1 ↔
        SimReach cexC5 (some "a") cexC5.current_state x) ∧
     ((∀ t ∈ cexC5.transitions,
        t.from_state = cexC5.current_state → t.action ≠ some "a") →
       (cexC5.simulate_action (some "a")).1 = [])) :=
  ⟨by decide, C5_simulate_action_amended cexC5 (some "a") (by decide)⟩

/-! ## BFS inner-loop lemma -/

theorem count_true_set_true {v : List Bool} {j : Nat} (h : j < v.length)
    (hj : v.getD j false = false) :
    (v.set j true).count true = v.count true + 1 := by
  induction v generalizing j with
  | nil => simp at h
  | cons x rest ih =>
      cases j with
      | zero =>
          simp only [List.getD, List.getElem?_cons_zero, Option.getD_some] at hj
          subst hj
          simp [List.set, List.count_cons]
      | succ j =>
          have hj' : rest.getD j false = false := by simpa [List.getD] using hj
          have := ih (by simpa using h) hj'
          simp only [List.set, List.count_cons]
          omega

theorem getD_set_true_mono {v : List Bool} {j k : Nat}
    (h : v.getD j false = true) : (v.set k true).getD j false = true := by
  by_cases hk : k = j
  · subst hk
    by_cases hkl : k < v.length
    · exact getD_set_self hkl true false
    · have hdef : v.getD k false = false := List.getD_eq_default v false (by omega)
      rw [hdef] at h
      exact Bool.noConfusion h
  · rwa [getD_set_ne hk]

theorem toNat_inj_of_nonneg {x y : Int} (hx : 0 ≤ x) (hy : 0 ≤ y)
    (h : x.toNat = y.toNat) : x = y := by
  rw [← Int.toNat_of_nonneg hx, ← Int.toNat_of_nonneg hy, h]

theorem bfsInner_spec (m : FiniteStateMachine) (start current : Int) :
    ∀ (ns : List Int) (d : Int → Nat) (q : List Int) (visited : List Bool)
      (prev : List (Option Int)),
    visited.length = m.states.length →
    prev.length = m.states.length →
    0 ≤ start → start < m.states.length →
    visited.getD start.toNat false = true →
    d start = 0 →
    0 ≤ current → current < m.states.length →
    visited.getD current.toNat false = true →
    (∀ x ∈ ns, stepRel m current x ∧ 0 ≤ x ∧ x < m.states.length) →
    (∀ x ∈ q, (0 ≤ x ∧ x < m.states.length) ∧ visited.getD x.toNat false = true) →
    q.Pairwise (fun x y => d x ≤ d y) →
    (∀ x ∈ q, d current ≤ d x) →
    (∀ x ∈ q, d x ≤ d current + 1) →
    (∀ x : Int, 0 ≤ x → x < m.states.length → visited.getD x.toNat false = true →
      ReachN m (d x) start x) →
    (∀ x : Int, 0 ≤ x → x < m.states.length → visited.getD x.toNat false = true →
      (x = start ∧ prev.getD x.toNat none = none) ∨
      (∃ u, prev.getD x.toNat none = some u ∧ 0 ≤ u ∧ u < m.states.length ∧
        visited.getD u.toNat false = true ∧ stepRel m u x ∧ d x = d u + 1)) →
    (∀ x : Int, 0 ≤ x → x < m.states.length → visited.getD x.toNat false = true →
      d x + 1 ≤ visited.count true) →
    (∀ j : Nat, j < m.states.length → visited.getD j false = false →
      prev.getD j none = none) →
    (∀ u : Int, 0 ≤ u → u < m.states.length → visited.getD u.toNat false = true →
      u ∉ q → u ≠ current →
      ∀ t ∈ m.transitions, t.from_state = u →
        visited.getD t.to_state.toNat false = true ∧ d t.to_state ≤ d u + 1) →
    (∀ u : Int, 0 ≤ u → u < m.states.length → visited.getD u.toNat false = true →
      u ∉ q → u ≠ current → d u ≤ d current) →
    ∃ d' : Int → Nat,
      (∀ x : Int, visited.getD x.toNat false = true → d' x = d x) ∧
      (bfsInner current ns q visited prev).2.1.length = m.states.length ∧
      (bfsInner current ns q visited prev).2.2.length = m.states.length ∧
      (∀ j : Nat, visited.getD j false = true →
        (bfsInner current ns q visited prev).2.1.getD j false = true) ∧
      ((bfsInner current ns q visited prev).1.length + visited.count true =
        q.length + (bfsInner current ns q visited prev).2.1.count true) ∧
      (∀ x ∈ (bfsInner current ns q visited prev).1,
        (0 ≤ x ∧ x < m.states.length) ∧
        (bfsInner current ns q visited prev).2.1.getD x.toNat false = true) ∧
      (bfsInner current ns q visited prev).1.Pairwise (fun x y => d' x ≤ d' y) ∧
      (∀ x ∈ (bfsInner current ns q visited prev).1, d' current ≤ d' x) ∧
      (∀ x ∈ (bfsInner current ns q visited prev).1, d' x ≤ d' current + 1) ∧
      (∀ x : Int, 0 ≤ x → x < m.states.length →
        (bfsInner current ns q visited prev).2.1.getD x.toNat false = true →
        ReachN m (d' x) start x) ∧
      (∀ x : Int, 0 ≤ x → x < m.states.length →
        (bfsInner current ns q visited prev).2.1.getD x.toNat false = true →
        (x = start ∧ (bfsInner current ns q visited prev).2.2.getD x.toNat none = none) ∨
        (∃ u, (bfsInner current ns q visited prev).2.2.getD x.toNat none = some u ∧
          0 ≤ u ∧ u < m.states.length ∧
          (bfsInner current ns q visited prev).2.1.getD u.toNat false = true ∧
          stepRel m u x ∧ d' x = d' u + 1)) ∧
      (∀ x : Int, 0 ≤ x → x < m.states.length →
        (bfsInner current ns q visited prev).2.1.getD x.toNat false = true →
        d' x + 1 ≤ (bfsInner current ns q visited prev).2.1.count true) ∧
      (∀ j : Nat, j < m.states.length →
        (bfsInner current ns q visited prev).2.1.getD j false = false →
        (bfsInner current ns q visited prev).2.2.getD j none = none) ∧
      (∀ u : Int, 0 ≤ u → u < m.states.length →
        (bfsInner current ns q visited prev).2.1.getD u.toNat false = true →
        u ∉ (bfsInner current ns q visited prev).1 → u ≠ current →
        ∀ t ∈ m.transitions, t.from_state = u →
          (bfsInner current ns q visited prev).2.1.getD t.to_state.toNat false = true ∧
          d' t.to_state ≤ d' u + 1) ∧
      (∀ u : Int, 0 ≤ u → u < m.states.length →
        (bfsInner current ns q visited prev).2.1.getD u.toNat false = true →
        u ∉ (bfsInner current ns q visited prev).1 → u ≠ current →
        d' u ≤ d' current) ∧
      (∀ x ∈ ns, (bfsInner current ns q visited prev).2.1.getD x.toNat false = true ∧
        d' x ≤ d' current + 1) := by
  intro ns
  induction ns with
  | nil =>
      intro d q visited prev hv hp hs0 hs1 hsv hd0 hc0 hc1 hcv hns hq hsort hlb hub
        hreach hprev hcount hpn hproc hprocle
      rw [bfsInner]
      exact ⟨d, fun x _ => rfl, hv, hp, fun j hj => hj, rfl, hq, hsort, hlb, hub,
        hreach, hprev, hcount, hpn, hproc, hprocle, by simp⟩
  | cons nxt rest ih =>
      intro d q visited prev hv hp hs0 hs1 hsv hd0 hc0 hc1 hcv hns hq hsort hlb hub
        hreach hprev hcount hpn hproc hprocle
      obtain ⟨hstep, hn0, hn1⟩ := hns nxt (List.mem_cons_self nxt rest)
      have hnj : nxt.toNat < visited.length := by
        rw [hv, Int.toNat_lt hn0]
        exact_mod_cast hn1
      have hnjp : nxt.toNat < prev.length := by
        rw [hp, Int.toNat_lt hn0]
        exact_mod_cast hn1
      by_cases hvis : pyGet visited nxt true = false
      · -- `nxt` unvisited: append it, mark it visited, record its predecessor
        rw [bfsInner, if_pos hvis]
        rw [pySet_eq_set hn0 (by rw [hv]; exact hn1) true,
          pySet_eq_set hn0 (by rw [hp]; exact hn1) (some current)]
        have hunvis : visited.getD nxt.toNat false = false := by
          rwa [pyGet_bool_unvis hn0 (by rw [hv]; exact hn1)] at hvis
        have hne_of_vis : ∀ x : Int, visited.getD x.toNat false = true → x ≠ nxt := by
          intro x hxv hxe
          rw [hxe, hunvis] at hxv
          exact Bool.noConfusion hxv
        have hcur_ne : current ≠ nxt := hne_of_vis current hcv
        have hstart_ne : start ≠ nxt := hne_of_vis start hsv
        have hv1 : (visited.set nxt.toNat true).length = m.states.length := by
          rw [List.length_set]; exact hv
        have hp1 : (prev.set nxt.toNat (some current)).length = m.states.length := by
          rw [List.length_set]; exact hp
        have hsv1 : (visited.set nxt.toNat true).getD start.toNat false = true :=
          getD_set_true_mono hsv
        have hd01 : Function.update d nxt (d current + 1) start = 0 := by
          rw [Function.update_noteq hstart_ne]
          exact hd0
        have hcv1 : (visited.set nxt.toNat true).getD current.toNat false = true :=
          getD_set_true_mono hcv
        have hns1 : ∀ x ∈ rest, stepRel m current x ∧ 0 ≤ x ∧ x < m.states.length :=
          fun x hx => hns x (List.mem_cons_of_mem nxt hx)
        have hold_of_set : ∀ x : Int, 0 ≤ x → x ≠ nxt →
            (visited.set nxt.toNat true).getD x.toNat false = true →
            visited.getD x.toNat false = true := by
          intro x hx0 hxe hxv
          rcases getD_set_true_cases hxv with hold | heq
          · exact hold
          · exact absurd (toNat_inj_of_nonneg hx0 hn0 heq) hxe
        have hq1 : ∀ x ∈ q ++ [nxt], (0 ≤ x ∧ x < m.states.length) ∧
            (visited.set nxt.toNat true).getD x.toNat false = true := by
          intro x hx
          rcases List.mem_append.mp hx with hxq | hxn
          · exact ⟨(hq x hxq).1, getD_set_true_mono (hq x hxq).2⟩
          · rcases List.mem_singleton.mp hxn with rfl
            exact ⟨⟨hn0, hn1⟩, getD_set_self hnj true false⟩
        have hupd_cur : Function.update d nxt (d current + 1) current = d current :=
          Function.update_noteq hcur_ne _ _
        have hsort1 : (q ++ [nxt]).Pairwise
            (fun x y => Function.update d nxt (d current + 1) x ≤
              Function.update d nxt (d current + 1) y) := by
          rw [List.pairwise_append]
          refine ⟨?_, by simp, ?_⟩
          · refine hsort.imp_of_mem ?_
            intro x y hx hy hxy
            rw [Function.update_noteq (hne_of_vis x (hq x hx).2),
              Function.update_noteq (hne_of_vis y (hq y hy).2)]
            exact hxy
          · intro x hx y hy
            rcases List.mem_singleton.mp hy with rfl
            rw [Function.update_noteq (hne_of_vis x (hq x hx).2), Function.update_same]
            exact hub x hx
        have hlb1 : ∀ x ∈ q ++ [nxt],
            Function.update d nxt (d current + 1) current ≤
            Function.update d nxt (d current + 1) x := by
          intro x hx
          rw [hupd_cur]
          rcases List.mem_append.mp hx with hxq | hxn
          · rw [Function.update_noteq (hne_of_vis x (hq x hxq).2)]
            exact hlb x hxq
          · rcases List.mem_singleton.mp hxn with rfl
            rw [Function.update_same]
            omega
        have hub1 : ∀ x ∈ q ++ [nxt],
            Function.update d nxt (d current + 1) x ≤
            Function.update d nxt (d current + 1) current + 1 := by
          intro x hx
          rw [hupd_cur]
          rcases List.mem_append.mp hx with hxq | hxn
          · rw [Function.update_noteq (hne_of_vis x (hq x hxq).2)]
            exact hub x hxq
          · rcases List.mem_singleton.mp hxn with rfl
            rw [Function.update_same]
        have hreach1 : ∀ x : Int, 0 ≤ x → x < m.states.length →
            (visited.set nxt.toNat true).getD x.toNat false = true →
            ReachN m (Function.update d nxt (d current + 1) x) start x := by
          intro x hx0 hx1 hxv
          by_cases hxe : x = nxt
          · subst hxe
            rw [Function.update_same]
            exact ReachN.snoc (hreach current hc0 hc1 hcv) hstep
          · rw [Function.update_noteq hxe]
            exact hreach x hx0 hx1 (hold_of_set x hx0 hxe hxv)
        have hprev1 : ∀ x : Int, 0 ≤ x → x < m.states.length →
            (visited.set nxt.toNat true).getD x.toNat false = true →
            (x = start ∧ (prev.set nxt.toNat (some current)).getD x.toNat none = none) ∨
            (∃ u, (prev.set nxt.toNat (some current)).getD x.toNat none = some u ∧
              0 ≤ u ∧ u < m.states.length ∧
              (visited.set nxt.toNat true).getD u.toNat false = true ∧ stepRel m u x ∧
              Function.update d nxt (d current + 1) x =
                Function.update d nxt (d current + 1) u + 1) := by
          intro x hx0 hx1 hxv
          by_cases hxe : x = nxt
          · subst hxe
            right
            refine ⟨current, getD_set_self hnjp (some current) none, hc0, hc1,
              getD_set_true_mono hcv, hstep, ?_⟩
            rw [Function.update_same, hupd_cur]
          · have hxold := hold_of_set x hx0 hxe hxv
            have hxnej : nxt.toNat ≠ x.toNat := by
              intro hh
              exact hxe (toNat_inj_of_nonneg hx0 hn0 hh.symm)
            rcases hprev x hx0 hx1 hxold with ⟨hxs, hxn⟩ | ⟨u, hu, hu0, hu1, huv, hus, hud⟩
            · left
              rw [getD_set_ne hxnej]
              exact ⟨hxs, hxn⟩
            · right
              refine ⟨u, ?_, hu0, hu1, getD_set_true_mono huv, hus, ?_⟩
              · rw [getD_set_ne hxnej]
                exact hu
              · rw [Function.update_noteq hxe, Function.update_noteq (hne_of_vis u huv)]
                exact hud
        have hcount1 : ∀ x : Int, 0 ≤ x → x < m.states.length →
            (visited.set nxt.toNat true).getD x.toNat false = true →
            Function.update d nxt (d current + 1) x + 1 ≤
              (visited.set nxt.toNat true).count true := by
          intro x hx0 hx1 hxv
          rw [count_true_set_true hnj hunvis]
          by_cases hxe : x = nxt
          · subst hxe
            rw [Function.update_same]
            have := hcount current hc0 hc1 hcv
            omega
          · rw [Function.update_noteq hxe]
            have := hcount x hx0 hx1 (hold_of_set x hx0 hxe hxv)
            omega
        have hpn1 : ∀ j : Nat, j < m.states.length →
            (visited.set nxt.toNat true).getD j false = false →
            (prev.set nxt.toNat (some current)).getD j none = none := by
          intro j hj hjv
          have hjne : nxt.toNat ≠ j := by
            intro hh
            rw [← hh, getD_set_self hnj] at hjv
            exact Bool.noConfusion hjv
          rw [getD_set_ne hjne]
          exact hpn j hj (by rwa [getD_set_ne hjne] at hjv)
        have hproc1 : ∀ u : Int, 0 ≤ u → u < m.states.length →
            (visited.set nxt.toNat true).getD u.toNat false = true →
            u ∉ q ++ [nxt] → u ≠ current →
            ∀ t ∈ m.transitions, t.from_state = u →
              (visited.set nxt.toNat true).getD t.to_state.toNat false = true ∧
              Function.update d nxt (d current + 1) t.to_state ≤
                Function.update d nxt (d current + 1) u + 1 := by
          intro u hu0 hu1 huv huq hune t htm htf
          have hunxt : u ≠ nxt := by
            intro hh
            rw [hh] at huq
            exact huq (List.mem_append.mpr (Or.inr (List.mem_singleton.mpr rfl)))
          have huold := hold_of_set u hu0 hunxt huv
          have huqold : u ∉ q := fun hh => huq (List.mem_append.mpr (Or.inl hh))
          obtain ⟨htov, htod⟩ := hproc u hu0 hu1 huold huqold hune t htm htf
          refine ⟨getD_set_true_mono htov, ?_⟩
          rw [Function.update_noteq (hne_of_vis t.to_state htov),
            Function.update_noteq hunxt]
          exact htod
        have hprocle1 : ∀ u : Int, 0 ≤ u → u < m.states.length →
            (visited.set nxt.toNat true).getD u.toNat false = true →
            u ∉ q ++ [nxt] → u ≠ current →
            Function.update d nxt (d current + 1) u ≤
            Function.update d nxt (d current + 1) current := by
          intro u hu0 hu1 huv huq hune
          have hunxt : u ≠ nxt := by
            intro hh
            rw [hh] at huq
            exact huq (List.mem_append.mpr (Or.inr (List.mem_singleton.mpr rfl)))
          have huold := hold_of_set u hu0 hunxt huv
          have huqold : u ∉ q := fun hh => huq (List.mem_append.mpr (Or.inl hh))
          rw [Function.update_noteq hunxt, hupd_cur]
          exact hprocle u hu0 hu1 huold huqold hune
        obtain ⟨d', hagree, hrl1, hrl2, hmono, hbal, hq', hsort', hlb', hub', hreach',
            hprev', hcount', hpn', hproc', hprocle', hcov'⟩ :=
          ih (Function.update d nxt (d current + 1)) (q ++ [nxt])
            (visited.set nxt.toNat true) (prev.set nxt.toNat (some current))
            hv1 hp1 hs0 hs1 hsv1 hd01 hc0 hc1 hcv1 hns1 hq1 hsort1 hlb1 hub1
            hreach1 hprev1 hcount1 hpn1 hproc1 hprocle1
        have hagree_old : ∀ x : Int, visited.getD x.toNat false = true → d' x = d x := by
          intro x hxv
          rw [hagree x (getD_set_true_mono hxv), Function.update_noteq (hne_of_vis x hxv)]
        refine ⟨d', hagree_old, hrl1, hrl2, ?_, ?_, hq', hsort', hlb', hub', hreach',
          hprev', hcount', hpn', hproc', hprocle', ?_⟩
        · intro j hj
          exact hmono j (getD_set_true_mono hj)
        · rw [count_true_set_true hnj hunvis] at hbal
          simp only [List.length_append, List.length_cons, List.length_nil] at hbal
          omega
        · intro x hx
          rcases List.mem_cons.mp hx with hxe | hx'
          · have hxv1 : (visited.set nxt.toNat true).getD nxt.toNat false = true :=
              getD_set_self hnj true false
            have hdx : d' nxt = d current + 1 := by
              rw [hagree nxt hxv1, Function.update_same]
            have hdc : d' current = d current := hagree_old current hcv
            rw [hxe]
            exact ⟨hmono nxt.toNat hxv1, by omega⟩
          · exact hcov' x hx'
      · -- `nxt` already visited: state unchanged
        rw [bfsInner, if_neg hvis]
        have hnv : visited.getD nxt.toNat false = true := by
          cases hg : visited.getD nxt.toNat false with
          | false =>
              exfalso
              apply hvis
              rw [pyGet_bool_unvis hn0 (by rw [hv]; exact hn1)]
              exact hg
          | true => rfl
        have hdnxt : d nxt ≤ d current + 1 := by
          by_cases hnq : nxt ∈ q
          · exact hub nxt hnq
          · by_cases hnc : nxt = current
            · rw [hnc]
              omega
            · have := hprocle nxt hn0 hn1 hnv hnq hnc
              omega
        obtain ⟨d', hagree, hrl1, hrl2, hmono, hbal, hq', hsort', hlb', hub', hreach',
            hprev', hcount', hpn', hproc', hprocle', hcov'⟩ :=
          ih d q visited prev hv hp hs0 hs1 hsv hd0 hc0 hc1 hcv
            (fun x hx => hns x (List.mem_cons_of_mem nxt hx)) hq hsort hlb hub
            hreach hprev hcount hpn hproc hprocle
        refine ⟨d', hagree, hrl1, hrl2, hmono, hbal, hq', hsort', hlb', hub', hreach',
          hprev', hcount', hpn', hproc', hprocle', ?_⟩
        intro x hx
        rcases List.mem_cons.mp hx with hxe | hx'
        · rw [hxe]
          refine ⟨hmono nxt.toNat hnv, ?_⟩
          rw [hagree nxt hnv, hagree current hcv]
          omega
        · exact hcov' x hx'

/-! ## BFS outer-loop lemma -/

theorem bfsLoop_spec (m : FiniteStateMachine) (hwf : Wf m) (start : Int) :
    ∀ (fuel : Nat) (d : Int → Nat) (D : Nat) (q : List Int) (visited : List Bool)
      (prev : List (Option Int)),
    BfsInv m start d D q visited prev →
    q.length + m.states.length ≤ fuel + visited.count true →
    ∃ (d' : Int → Nat) (D' : Nat),
      BfsInv m start d' D' [] (bfsLoop m fuel q visited prev).1
        (bfsLoop m fuel q visited prev).2 := by
  intro fuel
  induction fuel with
  | zero =>
      intro d D q visited prev hinv hfuel
      cases q with
      | nil =>
          rw [bfsLoop]
          exact ⟨d, D, hinv⟩
      | cons current qrest =>
          exfalso
          have hcle : visited.count true ≤ visited.length := List.count_le_length true visited
          rw [hinv.vlen] at hcle
          simp only [List.length_cons] at hfuel
          omega
  | succ f ihf =>
      intro d D q visited prev hinv hfuel
      cases q with
      | nil =>
          rw [bfsLoop]
          exact ⟨d, D, hinv⟩
      | cons current qrest =>
          rw [bfsLoop]
          obtain ⟨⟨hc0, hc1⟩, hcv⟩ := hinv.q_vis current (List.mem_cons_self _ _)
          have hns : ∀ x ∈ (outgoingOf m current).map (fun t => t.to_state),
              stepRel m current x ∧ 0 ≤ x ∧ x < m.states.length := by
            intro x hx
            obtain ⟨t, ht, rfl⟩ := List.mem_map.mp hx
            obtain ⟨htm, htf, hto⟩ := wf_outgoing hwf hc0 hc1 t ht
            exact ⟨⟨t, htm, htf, rfl⟩, hto⟩
          have hDle : D ≤ d current := hinv.q_lb current (List.mem_cons_self _ _)
          have hsort_rest : qrest.Pairwise (fun x y => d x ≤ d y) :=
            (List.pairwise_cons.mp hinv.q_sorted).2
          have hhead_le : ∀ y ∈ qrest, d current ≤ d y :=
            (List.pairwise_cons.mp hinv.q_sorted).1
          have hub_rest : ∀ x ∈ qrest, d x ≤ d current + 1 := by
            intro x hx
            have := hinv.q_ub x (List.mem_cons_of_mem _ hx)
            omega
          have hproc_mid : ∀ u : Int, 0 ≤ u → u < m.states.length →
              visited.getD u.toNat false = true → u ∉ qrest → u ≠ current →
              ∀ t ∈ m.transitions, t.from_state = u →
                visited.getD t.to_state.toNat false = true ∧ d t.to_state ≤ d u + 1 := by
            intro u hu0 hu1 huv huq hune
            refine hinv.proc_closed u hu0 hu1 huv ?_
            intro hmem
            rcases List.mem_cons.mp hmem with he | hm
            · exact hune he
            · exact huq hm
          have hprocle_mid : ∀ u : Int, 0 ≤ u → u < m.states.length →
              visited.getD u.toNat false = true → u ∉ qrest → u ≠ current →
              d u ≤ d current := by
            intro u hu0 hu1 huv huq hune
            have : d u ≤ D := by
              refine hinv.proc_le u hu0 hu1 huv ?_
              intro hmem
              rcases List.mem_cons.mp hmem with he | hm
              · exact hune he
              · exact huq hm
            omega
          obtain ⟨d', hagree, hrl1, hrl2, hmono, hbal, hq', hsort', hlb', hub', hreach',
              hprev', hcount', hpn', hproc', hprocle', hcov'⟩ :=
            bfsInner_spec m start current
              ((outgoingOf m current).map (fun t => t.to_state)) d qrest visited prev
              hinv.vlen hinv.plen hinv.start_nonneg hinv.start_lt hinv.start_vis
              hinv.d_start hc0 hc1 hcv hns
              (fun x hx => hinv.q_vis x (List.mem_cons_of_mem _ hx))
              hsort_rest hhead_le hub_rest hinv.vis_reach hinv.vis_prev hinv.d_count
              hinv.prev_none hproc_mid hprocle_mid
          refine ihf d' (d' current) _ _ _ ?_ ?_
          · refine ⟨hrl1, hrl2, hinv.start_nonneg, hinv.start_lt,
              hmono start.toNat hinv.start_vis, ?_, hq', hsort', hlb', hub',
              hreach', hprev', hcount', hpn', ?_, ?_⟩
            · rw [hagree start hinv.start_vis]
              exact hinv.d_start
            · intro u hu0 hu1 huv huq t htm htf
              by_cases hune : u = current
              · subst hune
                have htmem : t ∈ outgoingOf m u := wf_mem_outgoing hwf hu0 hu1 htm htf
                have htns : t.to_state ∈ (outgoingOf m u).map (fun t => t.to_state) :=
                  List.mem_map.mpr ⟨t, htmem, rfl⟩
                obtain ⟨htv, htd⟩ := hcov' t.to_state htns
                exact ⟨htv, htd⟩
              · exact hproc' u hu0 hu1 huv huq hune t htm htf
            · intro u hu0 hu1 huv huq
              by_cases hune : u = current
              · rw [hune]
              · exact hprocle' u hu0 hu1 huv huq hune
          · have hcle : visited.count true ≤ visited.length := List.count_le_length true visited
            simp only [List.length_cons] at hfuel
            omega

/-! ## BFS final-state lemmas -/

theorem bfs_final_complete (m : FiniteStateMachine) (hwf : Wf m) (start : Int) :
    ∀ (k : Nat) (x : Int), ReachN m k start x →
    ∀ (d : Int → Nat) (D : Nat) (visited : List Bool) (prev : List (Option Int)),
    BfsInv m start d D [] visited prev →
      (0 ≤ x ∧ x < m.states.length) ∧ visited.getD x.toNat false = true ∧ d x ≤ k := by
  intro k x hreach
  induction hreach with
  | refl u =>
      intro d D visited prev hinv
      exact ⟨⟨hinv.start_nonneg, hinv.start_lt⟩, hinv.start_vis, by rw [hinv.d_start]⟩
  | snoc hr hs ih =>
      intro d D visited prev hinv
      obtain ⟨⟨hu0, hu1⟩, huv, hud⟩ := ih d D visited prev hinv
      obtain ⟨t, htm, htf, hto⟩ := hs
      obtain ⟨hproc1, hproc2⟩ := hinv.proc_closed _ hu0 hu1 huv (by simp) t htm htf
      rw [hto] at hproc1 hproc2
      refine ⟨?_, hproc1, by omega⟩
      have hb := (hwf.2.1 t htm).2
      rw [hto] at hb
      exact hb

theorem getD_replicate (n j : Nat) (a : α) : (List.replicate n a).getD j a = a := by
  by_cases hj : j < n
  · rw [List.getD_eq_getElem _ _ (by simpa using hj)]
    simp
  · rw [List.getD_eq_default _ _ (by simpa using hj)]

theorem buildPath_spec (m : FiniteStateMachine) (start : Int) (d : Int → Nat)
    (D : Nat) (visited : List Bool) (prev : List (Option Int))
    (hinv : BfsInv m start d D [] visited prev) :
    ∀ (k : Nat) (x : Int), 0 ≤ x → x < m.states.length →
      visited.getD x.toNat false = true → d x = k →
      ∀ fuel : Nat, d x + 1 ≤ fuel →
      buildPath prev fuel x ≠ [] ∧
      (buildPath prev fuel x).length = d x + 1 ∧
      (buildPath prev fuel x).head? = some x ∧
      (buildPath prev fuel x).getLast? = some start ∧
      List.Chain' (fun a b => stepRel m b a) (buildPath prev fuel x) := by
  intro k
  induction k using Nat.strong_induction_on with
  | _ k ihk =>
      intro x hx0 hx1 hxv hdx fuel hfuel
      obtain ⟨f, rfl⟩ : ∃ f, fuel = f + 1 := ⟨fuel - 1, by omega⟩
      rw [buildPath]
      have hpy : pyGet prev x none = prev.getD x.toNat none :=
        pyGet_eq_getD hx0 (by rw [hinv.plen]; exact hx1) none
      rcases hinv.vis_prev x hx0 hx1 hxv with ⟨hxs, hxn⟩ | ⟨u, hu, hu0, hu1, huv, hus, hud⟩
      · have hd0 : d x = 0 := by
          rw [hxs]
          exact hinv.d_start
        simp only [hpy, hxn]
        refine ⟨by simp, by simp [hd0], by simp, by simp [hxs], by simp⟩
      · have hdu : d u < k := by omega
        obtain ⟨hne, hlen, hhead, hlast, hchain⟩ :=
          ihk (d u) hdu u hu0 hu1 huv rfl f (by omega)
        simp only [hpy, hu]
        obtain ⟨y, ys, hyys⟩ := List.exists_cons_of_ne_nil hne
        refine ⟨by simp, ?_, by simp, ?_, ?_⟩
        · simp only [List.length_cons, hlen]
          omega
        · rw [hyys, List.getLast?_cons_cons, ← hyys]
          exact hlast
        · rw [List.chain'_cons']
          refine ⟨?_, hchain⟩
          intro z hz
          rw [hhead, Option.mem_some_iff] at hz
          rw [← hz]
          exact hus

theorem bfs_master (m : FiniteStateMachine) (hwf : Wf m) (start end_ : Int)
    (hs0 : 0 ≤ start) (hs1 : start < m.states.length)
    (he0 : 0 ≤ end_) (he1 : end_ < m.states.length) :
    (¬ Reaches m start end_ → m.bfs end_ start = []) ∧
    (Reaches m start end_ →
      m.bfs end_ start ≠ [] ∧
      (m.bfs end_ start).head? = some start ∧
      (m.bfs end_ start).getLast? = some end_ ∧
      List.Chain' (stepRel m) (m.bfs end_ start) ∧
      ∀ k, ReachN m k start end_ → (m.bfs end_ start).length ≤ k + 1) := by
  have hsj : start.toNat < m.states.length := by
    rw [Int.toNat_lt hs0]
    exact_mod_cast hs1
  have hej : end_.toNat < m.states.length := by
    rw [Int.toNat_lt he0]
    exact_mod_cast he1
  have hrep : (List.replicate m.states.length false).length = m.states.length := by
    simp
  have hset : pySet (List.replicate m.states.length false) start true
      = (List.replicate m.states.length false).set start.toNat true :=
    pySet_eq_set hs0 (by rw [hrep]; exact hs1) true
  have hvis0len : ((List.replicate m.states.length false).set start.toNat true).length
      = m.states.length := by
    rw [List.length_set, hrep]
  have hvis0 : ∀ x : Int, 0 ≤ x →
      ((List.replicate m.states.length false).set start.toNat true).getD
        x.toNat false = true → x = start := by
    intro x hx0 hxv
    rcases getD_set_true_cases hxv with hold | heq
    · rw [getD_replicate] at hold
      exact Bool.noConfusion hold
    · exact toNat_inj_of_nonneg hx0 hs0 heq
  have hcount0 : ((List.replicate m.states.length false).set start.toNat true).count
      true = 1 := by
    rw [count_true_set_true (by rw [hrep]; exact hsj) (getD_replicate _ _ _)]
    simp [List.count_replicate]
  have hinv0 : BfsInv m start (fun _ => 0) 0 [start]
      ((List.replicate m.states.length false).set start.toNat true)
      (List.replicate m.states.length none) := by
    refine ⟨hvis0len, by simp, hs0, hs1, getD_set_self (by rw [hrep]; exact hsj) true false,
      rfl, ?_, List.pairwise_singleton _ _, by simp, by simp, ?_, ?_, ?_, ?_, ?_, ?_⟩
    · intro x hx
      rcases List.mem_singleton.mp hx with rfl
      exact ⟨⟨hs0, hs1⟩, getD_set_self (by rw [hrep]; exact hsj) true false⟩
    · intro x hx0 hx1 hxv
      have hxs := hvis0 x hx0 hxv
      rw [hxs]
      exact ReachN.refl start
    · intro x hx0 hx1 hxv
      left
      exact ⟨hvis0 x hx0 hxv, getD_replicate _ _ _⟩
    · intro x hx0 hx1 hxv
      rw [hcount0]
    · intro j hj hjv
      exact getD_replicate _ _ _
    · intro u hu0 hu1 huv huq
      exact absurd (by rw [hvis0 u hu0 huv]; exact List.mem_singleton.mpr rfl) huq
    · intro u hu0 hu1 huv huq
      exact absurd (by rw [hvis0 u hu0 huv]; exact List.mem_singleton.mpr rfl) huq
  obtain ⟨dF, DF, hinvF⟩ := bfsLoop_spec m hwf start (m.states.length + 1) (fun _ => 0) 0
    [start] ((List.replicate m.states.length false).set start.toNat true)
    (List.replicate m.states.length none) hinv0
    (by rw [hcount0]; simp only [List.length_singleton]; omega)
  have hbfs : m.bfs end_ start =
      (if ((buildPath (bfsLoop m (m.states.length + 1) [start]
            ((List.replicate m.states.length false).set start.toNat true)
            (List.replicate m.states.length none)).2
            (m.states.length + 1) end_).reverse.headD (start + 1) = start) then
        (buildPath (bfsLoop m (m.states.length + 1) [start]
            ((List.replicate m.states.length false).set start.toNat true)
            (List.replicate m.states.length none)).2
            (m.states.length + 1) end_).reverse
      else []) := by
    rw [FiniteStateMachine.bfs, hset]
  constructor
  · -- unreachable: the predecessor of `end_` was never set
    intro hnr
    have hnev : (bfsLoop m (m.states.length + 1) [start]
        ((List.replicate m.states.length false).set start.toNat true)
        (List.replicate m.states.length none)).1.getD end_.toNat false = false := by
      cases hg : (bfsLoop m (m.states.length + 1) [start]
          ((List.replicate m.states.length false).set start.toNat true)
          (List.replicate m.states.length none)).1.getD end_.toNat false with
      | false => rfl
      | true =>
          exfalso
          exact hnr ⟨dF end_, hinvF.vis_reach end_ he0 he1 hg⟩
    have hpnone : (bfsLoop m (m.states.length + 1) [start]
        ((List.replicate m.states.length false).set start.toNat true)
        (List.replicate m.states.length none)).2.getD end_.toNat none = none :=
      hinvF.prev_none end_.toNat hej hnev
    have hone : buildPath (bfsLoop m (m.states.length + 1) [start]
        ((List.replicate m.states.length false).set start.toNat true)
        (List.replicate m.states.length none)).2 (m.states.length + 1) end_ = [end_] := by
      rw [buildPath]
      rw [pyGet_eq_getD he0 (by rw [hinvF.plen]; exact he1)]
      simp only [hpnone]
    have hnes : end_ ≠ start := by
      intro he
      exact hnr ⟨0, by rw [he]; exact ReachN.refl start⟩
    rw [hbfs, hone]
    simp only [List.reverse_cons, List.reverse_nil, List.nil_append, List.headD_cons]
    rw [if_neg hnes]
  · -- reachable: the reconstructed path is a shortest path
    rintro ⟨k, hk⟩
    obtain ⟨-, hev, -⟩ := bfs_final_complete m hwf start k end_ hk dF DF _ _ hinvF
    have hfuelp : dF end_ + 1 ≤ m.states.length + 1 := by
      have h1 := hinvF.d_count end_ he0 he1 hev
      have h2 := List.count_le_length true (bfsLoop m (m.states.length + 1) [start]
        ((List.replicate m.states.length false).set start.toNat true)
        (List.replicate m.states.length none)).1
      rw [hinvF.vlen] at h2
      omega
    obtain ⟨hne, hlen, hhead, hlast, hchain⟩ := buildPath_spec m start dF DF _ _ hinvF
      (dF end_) end_ he0 he1 hev rfl (m.states.length + 1) hfuelp
    have hcond : (buildPath (bfsLoop m (m.states.length + 1) [start]
        ((List.replicate m.states.length false).set start.toNat true)
        (List.replicate m.states.length none)).2
        (m.states.length + 1) end_).reverse.headD (start + 1) = start := by
      rw [List.headD_eq_head?_getD, List.head?_reverse, hlast]
      rfl
    rw [hbfs, if_pos hcond]
    refine ⟨by simp [List.reverse_eq_nil_iff]; exact hne, ?_, ?_, ?_, ?_⟩
    · rw [List.head?_reverse]
      exact hlast
    · rw [List.getLast?_reverse]
      exact hhead
    · exact List.chain'_reverse.mpr hchain
    · intro k' hk'
      obtain ⟨-, -, hdk'⟩ := bfs_final_complete m hwf start k' end_ hk' dF DF _ _ hinvF
      rw [List.length_reverse, hlen]
      omega

/-- Claim C6: for a well-formed machine and valid non-negative start and end
ids, `bfs end start` returns `[]` exactly when `end` is unreachable from
`start` via stored transitions; when reachable it returns a path that starts at
`start`, ends at `end`, whose consecutive pairs are connected by stored
transitions, and whose length is minimal (a shortest path); and
`bfs start start = [start]`. -/
theorem C6_bfs_correct (m : FiniteStateMachine) (start end_ : Int) (hwf : Wf m)
    (hs0 : 0 ≤ start) (hs1 : start < m.states.length)
    (he0 : 0 ≤ end_) (he1 : end_ < m.states.length) :
    (m.bfs end_ start = [] ↔ ¬ Reaches m start end_) ∧
    (Reaches m start end_ →
      m.bfs end_ start ≠ [] ∧
      (m.bfs end_ start).head? = some start ∧
      (m.bfs end_ start).getLast? = some end_ ∧
      List.Chain' (stepRel m) (m.bfs end_ start) ∧
      ∀ k, ReachN m k start end_ → (m.bfs end_ start).length ≤ k + 1) ∧
    m.bfs start start = [start] := by
  obtain ⟨hA, hB⟩ := bfs_master m hwf start end_ hs0 hs1 he0 he1
  refine ⟨⟨?_, hA⟩, hB, ?_⟩
  · intro hempty hr
    exact (hB hr).1 hempty
  · obtain ⟨hA', hB'⟩ := bfs_master m hwf start start hs0 hs1 hs0 hs1
    have hr : Reaches m start start := ⟨0, ReachN.refl start⟩
    obtain ⟨hne, hhead, hlast, hchain, hmin⟩ := hB' hr
    have hlen1 : (m.bfs start start).length ≤ 1 := hmin 0 (ReachN.refl start)
    have hpos : 0 < (m.bfs start start).length := List.length_pos.mpr hne
    have hlen : (m.bfs start start).length = 1 := by omega
    obtain ⟨a, ha⟩ := List.length_eq_one.mp hlen
    rw [ha] at hhead ⊢
    simp only [List.head?_cons, Option.some_inj] at hhead
    rw [hhead]

/-- Witness for C6 on the fixture: start 0 and end 2 are valid ids, the
machine is well-formed, and the conclusions hold there (in particular
`bfs 2 0 = [0, 1, 2]` is a shortest path and `bfs 0 0 = [0]`). -/
theorem C6_bfs_correct_witness :
    (Wf fixtureFSM ∧ (0 : Int) ≤ 0 ∧ (0 : Int) < fixtureFSM.states.length ∧
      (0 : Int) ≤ 2 ∧ (2 : Int) < fixtureFSM.states.length) ∧
    ((fixtureFSM.bfs 2 0 = [] ↔ ¬ Reaches fixtureFSM 0 2) ∧
     (Reaches fixtureFSM 0 2 →
       fixtureFSM.bfs 2 0 ≠ [] ∧
       (fixtureFSM.bfs 2 0).head? = some 0 ∧
       (fixtureFSM.bfs 2 0).getLast? = some 2 ∧
       List.Chain' (stepRel fixtureFSM) (fixtureFSM.bfs 2 0) ∧
       ∀ k, ReachN fixtureFSM k 0 2 → (fixtureFSM.bfs 2 0).length ≤ k + 1) ∧
     fixtureFSM.bfs 0 0 = [0]) :=
  ⟨⟨by decide, by decide, by decide, by decide, by decide⟩,
   C6_bfs_correct fixtureFSM 0 2 (by decide) (by decide) (by decide) (by decide)
     (by decide)⟩

end PokemonFSM
